import Mathlib

/-!
Verification development for the iMessage-analysis core
(`src/app/page.tsx`, `src/lib/dataProcessing.ts`).

The TypeScript code is shallowly embedded: byte buffers are `List Nat`
(each entry one byte, 0–255), JS strings are Lean `String`s manipulated
through their `List Char` data, timestamps are integer milliseconds
(`ℤ`), and fractional quantities (response gaps in hours, sentiment)
are `ℚ`.  The browser's local time zone is modelled as UTC.  External
libraries (the `bplist-parser` package, the `sentiment` lexicon) enter
as explicit function parameters; everything written in the repository
itself is embedded concretely.
-/

/-! ## Generic string helpers (JS semantics) -/

/-- Whitespace characters stripped by JS `String.prototype.trim`
(the common members; the embedding uses this fixed set). -/
def jsWhitespaceChar (c : Char) : Bool :=
  c = ' ' || c = '\t' || c = '\n' || c = '\r' ||
  c = Char.ofNat 11 || c = Char.ofNat 12 || c = Char.ofNat 0xA0 || c = Char.ofNat 0xFEFF

/-- JS `s.trim()`: strip leading and trailing whitespace. -/
def jsTrim (s : String) : String :=
  String.mk (((s.data.dropWhile jsWhitespaceChar).reverse.dropWhile jsWhitespaceChar).reverse)

/-- Does `pat` occur at the very front of `l`? -/
def leadMatches : List Char → List Char → Bool
  | [], _ => true
  | _ :: _, [] => false
  | p :: ps, c :: cs => p = c && leadMatches ps cs

/-- JS `s.startsWith(pat)`. -/
def strStarts (s pat : String) : Bool := leadMatches pat.data s.data

/-- JS `s.endsWith(pat)`. -/
def strEnds (s pat : String) : Bool := leadMatches pat.data.reverse s.data.reverse

/-- Does `needle` occur (contiguously) anywhere in `hay`? -/
def subAt (needle : List Char) : List Char → Bool
  | [] => needle.isEmpty
  | c :: cs => leadMatches needle (c :: cs) || subAt needle cs

/-- JS `s.includes(sub)`. -/
def strHasSub (s sub : String) : Bool := subAt sub.data s.data

/-- JS `s.includes(c)` for a single character. -/
def strHasChar (s : String) (c : Char) : Bool := s.data.any (· = c)

/-- The ASCII apostrophe character (U+0027), written by code point. -/
def apos : Char := Char.ofNat 39

/-- JS `Array.from(new Set(l))`: deduplicate keeping first occurrences,
in first-occurrence order.  `acc` holds already-kept strings reversed. -/
def jsSetDedupGo (acc : List String) : List String → List String
  | [] => acc.reverse
  | x :: xs => if x ∈ acc then jsSetDedupGo acc xs else jsSetDedupGo (x :: acc) xs

def jsSetDedup (l : List String) : List String := jsSetDedupGo [] l

/-- Stable insertion used by `sortLenDesc`: a later element `x` is placed
after all existing elements of length ≥ its own (JS stable
`sort((a,b) => b.length - a.length)`). -/
def insLenDesc (x : String) : List String → List String
  | [] => [x]
  | y :: ys => if x.length > y.length then x :: y :: ys else y :: insLenDesc x ys

/-- JS stable `sort((a, b) => b.length - a.length)`. -/
def sortLenDesc (l : List String) : List String := l.foldl (fun acc x => insLenDesc x acc) []

/-- First character is a lowercase ASCII letter (JS `/^[a-z]/`). -/
def startsLowerAscii (s : String) : Bool :=
  match s.data with
  | [] => false
  | c :: _ => 'a' ≤ c && c ≤ 'z'

/-- Any character is a lowercase ASCII letter (JS `/[a-z]/` test). -/
def hasLowerAscii (s : String) : Bool := s.data.any (fun c => 'a' ≤ c && c ≤ 'z')

/-- Any character is an ASCII letter (JS `/[a-zA-Z]/` test). -/
def hasAsciiLetter (s : String) : Bool :=
  s.data.any (fun c => ('a' ≤ c && c ≤ 'z') || ('A' ≤ c && c ≤ 'Z'))

/-- ASCII digit test. -/
def isAsciiDigit (c : Char) : Bool := '0' ≤ c && c ≤ '9'

/-- ASCII alphanumeric test (JS `[a-zA-Z0-9]`). -/
def isAsciiAlphanum (c : Char) : Bool :=
  ('a' ≤ c && c ≤ 'z') || ('A' ≤ c && c ≤ 'Z') || isAsciiDigit c

/-! ## `src/lib/dataProcessing.ts` pure helpers -/

/-- One maximal run of word characters (`\w` = `[A-Za-z0-9_]`). -/
def isWordChar (c : Char) : Bool := isAsciiAlphanum c || c = '_'

/-- Count of `\b\w+\b` matches: the number of maximal nonempty runs of
word characters (embeds `countWords` / the inline `wordCount`
computation). -/
def countWords : List Char → Bool → Nat
  | [], _ => 0
  | c :: cs, inWord =>
    if isWordChar c then (if inWord then 0 else 1) + countWords cs true
    else countWords cs false

def countWordsStr (s : String) : Nat := countWords s.data false

/-- JS line terminators, which `.` in a regex without the `s` flag does
not match. -/
def isLineTerm (c : Char) : Bool :=
  c = '\n' || c = '\r' || c = Char.ofNat 0x2028 || c = Char.ofNat 0x2029

/-- Scanner for the regex test `/'.+?'/.test(text)` (from
`isReactionMessage` in `src/lib/dataProcessing.ts` and the inline
reaction check in `page.tsx`).  `st = some d` records that the
earliest apostrophe not yet invalidated by a line terminator is
followed by exactly `d` characters so far, none of them a line
terminator.  A match exists iff some apostrophe pair encloses at least
one character (which may itself be an apostrophe) and no line
terminator; an apostrophe arriving at `d = 0` closes nothing but
counts as enclosed content (`some 1`). -/
def reactScan : List Char → Option Nat → Bool
  | [], _ => false
  | c :: cs, st =>
    if c = apos then
      match st with
      | some d => if 1 ≤ d then true else reactScan cs (some 1)
      | none => reactScan cs (some 0)
    else if isLineTerm c then reactScan cs none
    else reactScan cs (st.map (· + 1))

/-- `isReactionMessage` (`src/lib/dataProcessing.ts` lines 55–59): the
regex `/'.+?'/` tested against the text. -/
def isReactionMessage (s : String) : Bool := reactScan s.data none

/-! ## Emoji classification (`isEmojiGrapheme`, `page.tsx` lines 1151–1170) -/

/-- One code point lies in the accepted emoji ranges. -/
def isEmojiChar (c : Char) : Bool :=
  let code := c.toNat
  (0x1F300 ≤ code && code ≤ 0x1FAFF) ||
  (0x2600 ≤ code && code ≤ 0x26FF) ||
  (0x2700 ≤ code && code ≤ 0x27BF) ||
  (0x1F000 ≤ code && code ≤ 0x1F0FF) ||
  (0x1F100 ≤ code && code ≤ 0x1F1FF) ||
  (0x1F200 ≤ code && code ≤ 0x1F2FF) ||
  (0x2300 ≤ code && code ≤ 0x23FF) ||
  (0x2B50 ≤ code && code ≤ 0x2B55) ||
  (0x203C ≤ code && code ≤ 0x3299) ||
  (0xE0020 ≤ code && code ≤ 0xE007F)

/-- A grapheme cluster (list of code points, as produced by
`Intl.Segmenter`) is an emoji if any of its code points is in the
ranges. -/
def isEmojiGrapheme (g : List Char) : Bool := g.any isEmojiChar

/-! ## PayloadDecoder (`decodeAttributedBody`, `page.tsx` lines 238–616)

Byte buffers are `List Nat` (entries 0–255).  The external
`bplist-parser` library is a parameter `parse : List Nat → Option (List PVal)`
(`none` models a parse error, caught locally in the source); everything
else is embedded from the source. -/

/-- Parsed plist values as produced by `bplist-parser` (a tree of JS
values: strings, numbers, booleans, byte buffers, arrays, objects). -/
inductive PVal where
  | str (s : String)
  | num (n : ℤ)
  | pbool (b : Bool)
  | pbytes (bs : List Nat)
  | arr (xs : List PVal)
  | dict (kvs : List (String × PVal))

/-- JS property access `o[k]` on a parsed object. -/
def dictLookup (k : String) : List (String × PVal) → Option PVal
  | [] => none
  | kv :: rest => if kv.1 = k then some kv.2 else dictLookup k rest

mutual
/-- The inner recursive harvest `searchObject` (`page.tsx` lines
324–339): collect every nonempty string leaf, skipping the `$class`
and `$classes` keys.  Numbers, booleans and byte buffers contribute
nothing (a `Buffer`'s enumerable values are numbers). -/
def searchObject : PVal → List String
  | .str s => if 0 < s.length then [s] else []
  | .num _ => []
  | .pbool _ => []
  | .pbytes _ => []
  | .arr xs => searchObjectList xs
  | .dict kvs => searchObjectKVs kvs

def searchObjectList : List PVal → List String
  | [] => []
  | x :: xs => searchObject x ++ searchObjectList xs

def searchObjectKVs : List (String × PVal) → List String
  | [] => []
  | kv :: rest =>
    (if kv.1 ≠ "$class" && kv.1 ≠ "$classes" then searchObject kv.2 else []) ++
      searchObjectKVs rest
end

mutual
/-- The fallback harvest `findAllStrings` (`page.tsx` lines 388–403):
collect every nonempty string leaf, descending only into keys that do
not start with `$` (except `$objects`). -/
def findAllStrings : PVal → List String
  | .str s => if 0 < s.length then [s] else []
  | .num _ => []
  | .pbool _ => []
  | .pbytes _ => []
  | .arr xs => findAllStringsList xs
  | .dict kvs => findAllStringsKVs kvs

def findAllStringsList : List PVal → List String
  | [] => []
  | x :: xs => findAllStrings x ++ findAllStringsList xs

def findAllStringsKVs : List (String × PVal) → List String
  | [] => []
  | kv :: rest =>
    (if !(strStarts kv.1 "$") || kv.1 = "$objects" then findAllStrings kv.2 else []) ++
      findAllStringsKVs rest
end

/-- Per-object collection inside the `$objects` loop (`page.tsx` lines
287–341): direct string, `NS.string`, `NSString`, `string`,
`NSAttributedString` (direct string or `CF$UID` reference into
`$objects`), then the recursive `searchObject` harvest. -/
def harvestObj (objects : List PVal) : PVal → List String
  | .str s => if 0 < s.length then [s] else []
  | .num _ => []
  | .pbool _ => []
  | .pbytes bs => searchObject (.pbytes bs)
  | .arr xs => searchObject (.arr xs)
  | .dict kvs =>
    (match dictLookup "NS" kvs with
     | some (.dict nsKvs) =>
       (match dictLookup "string" nsKvs with
        | some (.str s) => [s]
        | _ => [])
     | _ => []) ++
    (match dictLookup "NSString" kvs with
     | some (.str s) => [s]
     | _ => []) ++
    (match dictLookup "string" kvs with
     | some (.str s) => [s]
     | _ => []) ++
    (match dictLookup "NSAttributedString" kvs with
     | some (.dict aKvs) =>
       (match dictLookup "string" aKvs with
        | some (.str s) => [s]
        | _ => []) ++
       (match dictLookup "string" aKvs with
        | some (.dict sKvs) =>
          (match dictLookup "CF$UID" sKvs with
           | some (.num n) =>
             if 0 ≤ n then
               (match objects.get? n.toNat with
                | some (.str s) => [s]
                | _ => [])
             else []
           | _ => [])
        | _ => [])
     | _ => []) ++
    searchObject (.dict kvs)

/-- JS `/^[A-Z][a-z]+$/` test: one uppercase letter then at least one
lowercase letter. -/
def isCapWord (s : String) : Bool :=
  match s.data with
  | [] => false
  | c :: rest => ('A' ≤ c && c ≤ 'Z') && !rest.isEmpty && rest.all (fun d => 'a' ≤ d && d ≤ 'z')

/-- JS `/^\d+$/` test. -/
def isAllDigits (s : String) : Bool := !s.data.isEmpty && s.data.all isAsciiDigit

/-- The metadata filter on bplist-harvested strings (`page.tsx` lines
351–356). -/
def isMeaningfulBp (s : String) : Bool :=
  3 < s.length && !isCapWord s && !(strStarts s "NS") && !isAllDigits s

/-- Strings that look like actual text (`page.tsx` lines 361–363). -/
def isTextLike (s : String) : Bool :=
  strHasChar s ' ' ||
  s.data.any (fun c => c = '.' || c = ',' || c = '!' || c = '?' || c = ';' || c = ':') ||
  20 < s.length

/-- Candidate selection over the `$objects` array (`page.tsx` lines
282–385). -/
def bplistObjectsPick (objects : List PVal) : Option String :=
  let allStrings := objects.flatMap (harvestObj objects)
  if 0 < allStrings.length then
    let uniq := jsSetDedup allStrings
    let meaningful := uniq.filter isMeaningfulBp
    if 0 < meaningful.length then
      let textLike := meaningful.filter isTextLike
      match (sortLenDesc textLike).head? with
      | some r => some r
      | none => (sortLenDesc meaningful).head?
    else none
  else none

/-- Whole keyed-container harvest: the `$objects` path, then the
`findAllStrings` fallback (`page.tsx` lines 282–416).  `none` means
this strategy produced nothing and the byte-level strategies run. -/
def bplistHarvest (plistData : PVal) : Option String :=
  let fromObjects :=
    match plistData with
    | .dict kvs =>
      (match dictLookup "$objects" kvs with
       | some (.arr objects) => bplistObjectsPick objects
       | _ => none)
    | _ => none
  match fromObjects with
  | some r => some r
  | none =>
    let meaningful := (findAllStrings plistData).filter (fun s => 3 < s.length)
    (sortLenDesc meaningful).head?

/-- Strategy 1 extraction loop (`page.tsx` lines 428–457): accumulate
runs of printable ASCII (0x20–0x7E), flushing a candidate of length ≥ 2
at every non-printable byte and at the end of the buffer.  `cur` holds
the current run reversed. -/
def asciiScan : List Nat → List Char → List String
  | [], cur => if 2 ≤ cur.length then [String.mk cur.reverse] else []
  | b :: bs, cur =>
    if 32 ≤ b && b ≤ 126 then asciiScan bs (Char.ofNat b :: cur)
    else if 2 ≤ cur.length then String.mk cur.reverse :: asciiScan bs []
    else asciiScan bs []

/-- Fixed metadata tokens excluded by strategy 1 (`page.tsx` lines
467–470). -/
def metadataPatterns : List String := ["streamtyped", "__kIMMessagePartAttributeName"]

/-- Strategy 1 "meaningful" filter (`page.tsx` lines 472–484). -/
def isMeaningful1 (s : String) : Bool :=
  let t := jsTrim s
  if metadataPatterns.any (fun p => t = p || strHasSub t p) then false
  else if (strStarts t "NS" || strStarts t "__" || strStarts t "CF") && t.length < 10 then false
  else 2 ≤ t.length

/-- The apostrophe as a one-character string. -/
def aposStr : String := String.mk [apos]

/-- One direction of the pairwise reconstruction check (`page.tsx`
lines 503–510): `s1` is the left fragment, `s2` the right. -/
def reconFwd (s1 s2 : String) : List String :=
  if (strEnds s1 aposStr || strEnds s1 "n" || strEnds s1 "t" || strEnds s1 " ") &&
     (strStarts s2 "t " || strStarts s2 aposStr || startsLowerAscii s2) then
    let c := jsTrim (s1 ++ s2)
    if c.length > max s1.length s2.length then [c] else []
  else []

/-- Both directions for one `(i, j)` pair (`page.tsx` lines 498–521):
forward `s1 + s2` first, then reverse `s2 + s1`. -/
def reconPair (s1 s2 : String) : List String := reconFwd s1 s2 ++ reconFwd s2 s1

/-- The double loop `i < j` over meaningful strings. -/
def reconAll : List String → List String
  | [] => []
  | x :: xs => xs.flatMap (fun y => reconPair x y) ++ reconAll xs

/-- Final candidate selection when no with-space candidate survives
(`page.tsx` lines 534–538). -/
def strat1Fallback (cands : List String) : Option String :=
  match (sortLenDesc cands).head? with
  | some r0 => let r := jsTrim r0; if 2 ≤ r.length then some r else none
  | none => none

/-- Strategy 1 candidate selection (`page.tsx` lines 495–539): add
reconstructed fragments, prefer the longest candidate containing a
space, else the longest candidate; a selected string shorter than 2
characters after trimming falls through. -/
def strat1Pick (meaningful : List String) : Option String :=
  if 0 < meaningful.length then
    let cands := meaningful ++ reconAll meaningful
    let withSpaces := cands.filter (fun s => strHasChar s ' ')
    match (sortLenDesc withSpaces).head? with
    | some r0 =>
      let r := jsTrim r0
      if 2 ≤ r.length then some r else strat1Fallback cands
    | none => strat1Fallback cands
  else none

/-- The replacement character emitted for invalid UTF-8. -/
def replChar : Char := Char.ofNat 0xFFFD

/-- UTF-8 decoding with U+FFFD replacement, as performed by
`buffer.toString('utf8')` (WHATWG decoder: on an invalid or truncated
sequence, emit one replacement character and resume at the offending
byte). -/
def utf8Decode : List Nat → List Char
  | [] => []
  | b :: bs =>
    if b < 0x80 then Char.ofNat b :: utf8Decode bs
    else if b < 0xC2 then replChar :: utf8Decode bs
    else if b < 0xE0 then
      match bs with
      | [] => [replChar]
      | b2 :: rest =>
        if 0x80 ≤ b2 && b2 ≤ 0xBF then
          Char.ofNat ((b - 0xC0) * 64 + (b2 - 0x80)) :: utf8Decode rest
        else replChar :: utf8Decode (b2 :: rest)
    else if b < 0xF0 then
      match bs with
      | [] => [replChar]
      | b2 :: rest =>
        if (if b = 0xE0 then 0xA0 ≤ b2 && b2 ≤ 0xBF
            else if b = 0xED then 0x80 ≤ b2 && b2 ≤ 0x9F
            else 0x80 ≤ b2 && b2 ≤ 0xBF) then
          match rest with
          | [] => [replChar]
          | b3 :: rest2 =>
            if 0x80 ≤ b3 && b3 ≤ 0xBF then
              Char.ofNat ((b - 0xE0) * 4096 + (b2 - 0x80) * 64 + (b3 - 0x80)) :: utf8Decode rest2
            else replChar :: utf8Decode (b3 :: rest2)
        else replChar :: utf8Decode (b2 :: rest)
    else if b < 0xF5 then
      match bs with
      | [] => [replChar]
      | b2 :: rest =>
        if (if b = 0xF0 then 0x90 ≤ b2 && b2 ≤ 0xBF
            else if b = 0xF4 then 0x80 ≤ b2 && b2 ≤ 0x8F
            else 0x80 ≤ b2 && b2 ≤ 0xBF) then
          match rest with
          | [] => [replChar]
          | b3 :: rest2 =>
            if 0x80 ≤ b3 && b3 ≤ 0xBF then
              match rest2 with
              | [] => [replChar]
              | b4 :: rest3 =>
                if 0x80 ≤ b4 && b4 ≤ 0xBF then
                  Char.ofNat ((b - 0xF0) * 262144 + (b2 - 0x80) * 4096 +
                    (b3 - 0x80) * 64 + (b4 - 0x80)) :: utf8Decode rest3
                else replChar :: utf8Decode (b4 :: rest3)
            else replChar :: utf8Decode (b3 :: rest2)
        else replChar :: utf8Decode (b2 :: rest)
    else replChar :: utf8Decode bs
  termination_by l => l.length
  decreasing_by all_goals simp_arith [*]

/-- JS `\s` character class (the common members; fixed set for the
embedding). -/
def jsRegexSpaceChar (c : Char) : Bool :=
  jsWhitespaceChar c || c = Char.ofNat 0x2028 || c = Char.ofNat 0x2029

/-- Second character class of the strategy-2 regex:
`[a-zA-Z0-9\s.,!?;:'"()-]`. -/
def strat2Class2 (c : Char) : Bool :=
  isAsciiAlphanum c || jsRegexSpaceChar c ||
  c = '.' || c = ',' || c = '!' || c = '?' || c = ';' || c = ':' ||
  c = apos || c = '"' || c = '(' || c = ')' || c = '-'

/-- All matches of `/[a-zA-Z0-9][a-zA-Z0-9\s.,!?;:'"()-]{8,}/g`:
scanning left to right, a match starts at an alphanumeric character
followed by a maximal run of at least 8 class-2 characters; matching
resumes after each match. -/
def regexMatches : List Char → List String
  | [] => []
  | c :: rest =>
    if isAsciiAlphanum c then
      let run := rest.takeWhile strat2Class2
      if 8 ≤ run.length then
        String.mk (c :: run) :: regexMatches (rest.drop run.length)
      else regexMatches rest
    else regexMatches rest
  termination_by l => l.length
  decreasing_by
    all_goals simp_arith [List.length_drop]

/-- One offset attempt of strategy 2 (`page.tsx` lines 551–578):
decode up to 500 bytes from the offset as UTF-8, take regex matches,
filter, and select the longest. -/
def strat2Attempt (bytes : List Nat) (offset : Nat) : Option String :=
  let text := utf8Decode ((bytes.drop offset).take 500)
  let ms := regexMatches text
  let good := ms.filter (fun m =>
    let t := jsTrim m
    (8 ≤ t.length) && strHasChar t ' ' && !(strStarts t "NS") && hasLowerAscii t && hasAsciiLetter t)
  match (sortLenDesc good).head? with
  | some r0 => let r := jsTrim r0; if 8 ≤ r.length then some r else none
  | none => none

/-- Strategy 2: offsets 15 to `min 100 bytes.length - 1`, first success
wins. -/
def strategy2 (bytes : List Nat) : Option String :=
  (List.range' 15 (min 100 bytes.length - 15)).findSome? (strat2Attempt bytes)

/-- The UTF-16LE accumulation loop (`page.tsx` lines 587–599): read
byte pairs little-endian, stop at a NUL pair, a NUL unit or any
non-printable-ASCII unit; at most 100 pairs (the `i < 200` cap). -/
def utf16Collect : List Nat → Nat → List Char
  | b1 :: b2 :: rest, Nat.succ fuel =>
    if b1 = 0 && b2 = 0 then []
    else
      let code := b1 + b2 * 256
      if 32 ≤ code && code ≤ 126 then Char.ofNat code :: utf16Collect rest fuel
      else []
  | _, _ => []

/-- One offset attempt of strategy 3 (`page.tsx` lines 582–604). -/
def strat3Attempt (bytes : List Nat) (offset : Nat) : Option String :=
  let buf := bytes.drop offset
  if 20 ≤ buf.length then
    let s := String.mk (utf16Collect buf 100)
    if 10 ≤ s.length && strHasChar s ' ' && hasLowerAscii s then some (jsTrim s) else none
  else none

/-- Strategy 3: even offsets from 20 below `min 100 (bytes.length - 2)`,
first success wins. -/
def strategy3 (bytes : List Nat) : Option String :=
  (List.range' 20 ((min 100 (bytes.length - 2) - 20 + 1) / 2) 2).findSome? (strat3Attempt bytes)

/-- Diagnostic counts surfaced on a failed decode (`page.tsx` lines
487–493 and 541–547). -/
inductive DebugInfo where
  | counts (totalStrings uniqueStrings meaningfulStrings : Nat)
      (allStrings meaningful : List String)
deriving DecidableEq

/-- Result of `decodeAttributedBody`: decoded text (or `none`) plus
debug info for failed decodes. -/
structure DecodeResult where
  text : Option String
  debugInfo : Option DebugInfo
deriving DecidableEq

/-- The header preview `buffer.toString('ascii', 0, 20)` with
non-printable characters replaced by dots (`page.tsx` lines 257–259);
Node's `ascii` decoding masks each byte with 0x7F. -/
def asciiHeader (bytes : List Nat) : String :=
  String.mk ((bytes.take 20).map (fun b =>
    let c := b % 128
    if 32 ≤ c && c ≤ 126 then Char.ofNat c else '.'))

/-- `decodeAttributedBody` (`page.tsx` lines 238–616).  An empty buffer
fails immediately with no diagnostics.  A buffer with a `bplist` header
is parsed (`parse` models `bplist-parser`; `none` is a caught parse
error) and harvested; on failure or for any other buffer, strategies
1–3 run in order.  If everything fails, the strategy-1 diagnostic
counts are returned.  When the strategy-1 string list is empty, the
source builds an explicit all-zero diagnostics object, which equals
the computed one. -/
def decodeAttributedBody (parse : List Nat → Option (List PVal)) (bytes : List Nat) :
    DecodeResult :=
  if bytes.length = 0 then ⟨none, none⟩ else
  let fromBplist :=
    if strStarts (asciiHeader bytes) "bplist" then
      match parse bytes with
      | some (p :: _) => bplistHarvest p
      | _ => none
    else none
  match fromBplist with
  | some t => ⟨some t, none⟩
  | none =>
    let strings := asciiScan bytes []
    let uniq := jsSetDedup strings
    let meaningful := uniq.filter isMeaningful1
    let dbg := DebugInfo.counts strings.length uniq.length meaningful.length
      (uniq.take 10) (meaningful.take 10)
    match strat1Pick meaningful with
    | some t => ⟨some t, none⟩
    | none =>
      match strategy2 bytes with
      | some t => ⟨some t, none⟩
      | none =>
        match strategy3 bytes with
        | some t => ⟨some t, none⟩
        | none => ⟨none, some dbg⟩

/-! ## Calendar model (local time zone modelled as UTC)

Timestamps are integer milliseconds since the Unix epoch (`ℤ`).  Day
numbers are `ℤ` (1970-01-01 = day 0, a Thursday).  The civil-calendar
conversion is the standard days↔Gregorian algorithm. -/

def epochDayOfMs (t : ℤ) : ℤ := Int.fdiv t 86400000

/-- JS `date.getDay()` on a day number: 0 = Sunday … 6 = Saturday. -/
def wdOfDay (d : ℤ) : ℤ := (d + 4).emod 7

/-- JS `date.getHours()` (UTC model). -/
def hourOfMs (t : ℤ) : ℕ := ((Int.fdiv t 3600000).emod 24).toNat

/-- Gregorian (year, month 1–12, day 1–31) of a day number. -/
def civilOfDay (z0 : ℤ) : ℤ × ℤ × ℤ :=
  let z := z0 + 719468
  let era := Int.fdiv z 146097
  let doe := z - era * 146097
  let yoe := Int.fdiv (doe - Int.fdiv doe 1460 + Int.fdiv doe 36524 - Int.fdiv doe 146096) 365
  let doy := doe - (365 * yoe + Int.fdiv yoe 4 - Int.fdiv yoe 100)
  let mp := Int.fdiv (5 * doy + 2) 153
  let d := doy - Int.fdiv (153 * mp + 2) 5 + 1
  let m := mp + (if mp < 10 then 3 else -9)
  (yoe + era * 400 + (if m ≤ 2 then 1 else 0), m, d)

def yearOfMs (t : ℤ) : ℤ := (civilOfDay (epochDayOfMs t)).1

/-- JS `date.getMonth() + 1` (month 1–12). -/
def monthOfMs (t : ℤ) : ℤ := (civilOfDay (epochDayOfMs t)).2.1

/-- Day number of `new Date(year, 0, 1)` (January 1 of `y`). -/
def dayOfJan1 (y : ℤ) : ℤ :=
  let yAdj := y - 1
  let era := Int.fdiv yAdj 400
  let yoe := yAdj - era * 400
  let doe := yoe * 365 + Int.fdiv yoe 4 - Int.fdiv yoe 100 + 306
  era * 146097 + doe - 719468

/-- JS `String(n).padStart(2, '0')`. -/
def pad2 (n : ℤ) : String :=
  if 0 ≤ n ∧ n < 10 then "0" ++ toString n else toString n

/-- The `dayNames` array (`page.tsx` line 760, Sunday first). -/
def dayNames : List String :=
  ["Sunday", "Monday", "Tuesday", "Wednesday", "Thursday", "Friday", "Saturday"]

/-- The heatmap row order (`page.tsx` line 805, Monday first). -/
def dayOrder : List String :=
  ["Monday", "Tuesday", "Wednesday", "Thursday", "Friday", "Saturday", "Sunday"]

/-- Week key `${year}-W${week}` (`page.tsx` lines 765–770). -/
def weekKeyOfMs (t : ℤ) : String :=
  let y := yearOfMs t
  let days := epochDayOfMs t - dayOfJan1 y
  toString y ++ "-W" ++ pad2 (Int.fdiv days 7)

/-- Month key `${year}-${month}` (`page.tsx` line 772). -/
def monthKeyOfMs (t : ℤ) : String := toString (yearOfMs t) ++ "-" ++ pad2 (monthOfMs t)

/-! ## MessageNormalizer (`page.tsx` lines 618–797) -/

/-- One row of the message query: Apple-epoch nanosecond timestamp,
optional text, sender flag, optional `attributedBody` blob. -/
structure RawRow where
  dateNs : ℤ
  text : Option String
  isFromMe : Bool
  blob : Option (List Nat)

/-- A processed (normalized) message (`page.tsx` lines 660–671). -/
structure PMsg where
  date : ℤ
  text : String
  isFromMe : Bool
  wordCount : ℕ
  hour : ℕ
  dayOfWeek : ℕ
  dayName : String
  weekKey : String
  monthKey : String
  sentiment : ℚ
deriving DecidableEq

/-- JS `!text || text.trim() === ''`. -/
def isBlank (s : String) : Bool := s = "" || jsTrim s = ""

/-- Milliseconds of 2001-01-01T00:00:00Z. -/
def epoch2001ms : ℤ := 978307200000

/-- Derivation of all per-message attributes (`page.tsx` lines
754–792).  `score` models the external `sentiment` library's integer
score; the normalized sentiment clamps `score/5` to `[-1, 1]`.  The
fractional part of `rawNanoseconds / 1e6` is truncated by the `Date`
constructor; timestamps are nonnegative in the data, so this is
`fdiv`. -/
def mkPMsg (score : String → ℤ) (dateNs : ℤ) (text : String) (isFromMe : Bool) : PMsg :=
  let t := epoch2001ms + Int.fdiv dateNs 1000000
  let day := epochDayOfMs t
  let dow := (wdOfDay day).toNat
  let sRaw := score text
  { date := t
    text := text
    isFromMe := isFromMe
    wordCount := countWordsStr text
    hour := hourOfMs t
    dayOfWeek := dow
    dayName := dayNames.getD dow ""
    weekKey := weekKeyOfMs t
    monthKey := monthKeyOfMs t
    sentiment := if sRaw ≠ 0 then max (-1) (min 1 ((sRaw : ℚ) / 5)) else 0 }

/-- Text resolution for one row (`page.tsx` lines 679–734): primary
text (JS `row[1] || ''`), falling back to the payload decode when
blank and a blob exists.  Returns the resolved text (`none` when the
decode failed and the row is skipped), the with-attributed-body
increment, and the decoded increment. -/
def resolveRowText (parse : List Nat → Option (List PVal)) (row : RawRow) :
    Option String × ℕ × ℕ :=
  let text0 := match row.text with | some t => t | none => ""
  if isBlank text0 then
    match row.blob with
    | some b =>
      (match (decodeAttributedBody parse b).text with
       | some t => if t ≠ "" && 0 < (jsTrim t).length then (some t, 1, 1) else (none, 1, 0)
       | none => (none, 1, 0))
    | none => (some text0, 0, 0)
  else (some text0, 0, 0)

/-- Full per-row outcome (`page.tsx` lines 679–793): resolved text, the
blank skip, the optional reaction filter, then attribute derivation.
Returns (kept message, counted-as-reaction, with-attributed-body
increment, decoded increment). -/
def rowToMsg (parse : List Nat → Option (List PVal)) (score : String → ℤ)
    (filterReactions : Bool) (row : RawRow) : Option PMsg × Bool × ℕ × ℕ :=
  match resolveRowText parse row with
  | (none, ab, dec) => (none, false, ab, dec)
  | (some text, ab, dec) =>
    if isBlank text then (none, false, ab, dec)
    else if filterReactions && isReactionMessage text then (none, true, ab, dec)
    else (some (mkPMsg score row.dateNs text row.isFromMe), false, ab, dec)

/-- Accumulated output of the normalization loop. -/
structure NormResult where
  msgs : List PMsg
  reactionsFiltered : ℕ
  withAttributedBody : ℕ
  decodedCount : ℕ
deriving DecidableEq

/-- The normalization loop over all rows, preserving input order. -/
def normalizeRows (parse : List Nat → Option (List PVal)) (score : String → ℤ)
    (filterReactions : Bool) : List RawRow → NormResult
  | [] => ⟨[], 0, 0, 0⟩
  | row :: rest =>
    let h := rowToMsg parse score filterReactions row
    let tr := normalizeRows parse score filterReactions rest
    ⟨(match h.1 with | some m => m :: tr.msgs | none => tr.msgs),
     (if h.2.1 then 1 else 0) + tr.reactionsFiltered,
     h.2.2.1 + tr.withAttributedBody,
     h.2.2.2 + tr.decodedCount⟩

/-! ## Generic stable sorts and counting maps (JS `Map` / `Array.sort`) -/

/-- Stable insertion for a descending sort by a natural-number key
(JS stable `sort((a, b) => key(b) - key(a))`). -/
def insKeyDesc {α : Type} (key : α → ℕ) (x : α) : List α → List α
  | [] => [x]
  | y :: ys => if key x > key y then x :: y :: ys else y :: insKeyDesc key x ys

def sortKeyDesc {α : Type} (key : α → ℕ) (l : List α) : List α :=
  l.foldl (fun acc x => insKeyDesc key x acc) []

/-- Stable insertion for an ascending sort by an integer key. -/
def insKeyAscZ {α : Type} (key : α → ℤ) (x : α) : List α → List α
  | [] => [x]
  | y :: ys => if key x < key y then x :: y :: ys else y :: insKeyAscZ key x ys

def sortKeyAscZ {α : Type} (key : α → ℤ) (l : List α) : List α :=
  l.foldl (fun acc x => insKeyAscZ key x acc) []

/-- JS `map.set(k, (map.get(k) || 0) + 1)` on an insertion-ordered
association list. -/
def bumpCount (k : String) : List (String × ℕ) → List (String × ℕ)
  | [] => [(k, 1)]
  | kv :: rest => if kv.1 = k then (kv.1, kv.2 + 1) :: rest else kv :: bumpCount k rest

/-- JS `map.get(k) || 0`. -/
def mapGetD (l : List (String × ℕ)) (k : String) : ℕ :=
  match l.find? (fun kv => kv.1 = k) with
  | some kv => kv.2
  | none => 0

/-! ## TimeSeriesAggregator: heatmap (`page.tsx` lines 799–817) -/

def heatKey (day : String) (hour : ℕ) : String := day ++ "-" ++ toString hour

def msgHeatKey (m : PMsg) : String := heatKey m.dayName m.hour

def heatmapMap (msgs : List PMsg) : List (String × ℕ) :=
  msgs.foldl (fun acc m => bumpCount (msgHeatKey m) acc) []

structure HeatCell where
  day : String
  hour : ℕ
  value : ℕ
deriving DecidableEq

/-- The heatmap: for each of the 7 days (Monday first) and each of the
24 hours, the count of messages with that `(dayName, hour)` key,
zero-filled. -/
def heatmapData (msgs : List PMsg) : List HeatCell :=
  dayOrder.flatMap (fun day =>
    (List.range 24).map (fun h => ⟨day, h, mapGetD (heatmapMap msgs) (heatKey day h)⟩))

/-! ## TimeSeriesAggregator: words per week (`page.tsx` lines 819–863) -/

/-- The `weeklyWords` map update (`page.tsx` lines 824–831): per week
key, accumulate the word count and keep the earliest date seen. -/
def wwUpd (key : String) (d : ℤ) (wc : ℕ) : List (String × ℤ × ℕ) → List (String × ℤ × ℕ)
  | [] => [(key, d, wc)]
  | kv :: rest =>
    if kv.1 = key then
      (key, (if d < kv.2.1 then d else kv.2.1), kv.2.2 + wc) :: rest
    else kv :: wwUpd key d wc rest

def weeklyWords (msgs : List PMsg) : List (String × ℤ × ℕ) :=
  msgs.foldl (fun acc m => wwUpd m.weekKey m.date m.wordCount acc) []

/-- The bucket label (`page.tsx` lines 834–835):
`weekStart.setDate(weekStart.getDate() - weekStart.getDay())`, i.e. the
day number of the bucket's representative date minus its JS day-of-week
index (Sunday = 0).  The rendered locale string is modelled by the day
number itself. -/
def wwLabelDay (dateMs : ℤ) : ℤ :=
  let day := epochDayOfMs dateMs
  day - wdOfDay day

structure WWEntry where
  labelDay : ℤ
  words : ℕ
deriving DecidableEq

/-- Words-per-week output: messages within the trailing window
(`m.date ≥ cutoff`, where `cutoff` models `sixMonthsAgo`), summed per
week key, labelled, and sorted by label date. -/
def wordsPerWeekData (msgs : List PMsg) (cutoff : ℤ) : List WWEntry :=
  let recent := msgs.filter (fun m => cutoff ≤ m.date)
  sortKeyAscZ (fun e => e.labelDay)
    ((weeklyWords recent).map (fun e => ⟨wwLabelDay e.2.1, e.2.2⟩))

/-- The per-week preview list (`page.tsx` lines 848–863): first 10
messages of each week, flattened in week-first-seen order. -/
structure WMsg where
  text : String
  dateMs : ℤ
  isFromMe : Bool
  weekKey : String
deriving DecidableEq

def wmUpd (m : WMsg) : List (String × List WMsg) → List (String × List WMsg)
  | [] => [(m.weekKey, [m])]
  | kv :: rest =>
    if kv.1 = m.weekKey then
      (if kv.2.length < 10 then (kv.1, kv.2 ++ [m]) else kv) :: rest
    else kv :: wmUpd m rest

def wordsPerWeekMsgsData (msgs : List PMsg) (cutoff : ℤ) : List WMsg :=
  let recent := msgs.filter (fun m => cutoff ≤ m.date)
  ((recent.foldl (fun acc m => wmUpd ⟨m.text, m.date, m.isFromMe, m.weekKey⟩ acc) []).flatMap
    (fun kv => kv.2))

/-! ## TimeSeriesAggregator: weekly word share (`page.tsx` lines 865–907) -/

/-- Monday-aligned week start (`page.tsx` line 872):
`getDate() - getDay() + (getDay() === 0 ? -6 : 1)`. -/
def mondayWeekStart (day : ℤ) : ℤ :=
  day - wdOfDay day + (if wdOfDay day = 0 then -6 else 1)

def csUpd (key : ℤ) (isMe : Bool) (wc : ℕ) : List (ℤ × ℕ × ℕ) → List (ℤ × ℕ × ℕ)
  | [] => [(key, if isMe then (wc, 0) else (0, wc))]
  | kv :: rest =>
    if kv.1 = key then
      (key, (if isMe then (kv.2.1 + wc, kv.2.2) else (kv.2.1, kv.2.2 + wc))) :: rest
    else kv :: csUpd key isMe wc rest

structure CSEntry where
  labelDay : ℤ
  you : ℚ
  them : ℚ
deriving DecidableEq

/-- Weekly word-share output: per Monday-aligned week, each sender's
share of the week's words; 0 when the week has no words.  The ISO-date
map key and the locale label are both modelled by the week-start day
number. -/
def conversationShareData (msgs : List PMsg) (cutoff : ℤ) : List CSEntry :=
  let recent := msgs.filter (fun m => cutoff ≤ m.date)
  let weekly := recent.foldl
    (fun acc m => csUpd (mondayWeekStart (epochDayOfMs m.date)) m.isFromMe m.wordCount acc) []
  sortKeyAscZ (fun e => e.labelDay)
    (weekly.map (fun kv =>
      let total : ℕ := kv.2.1 + kv.2.2
      ⟨kv.1,
       (if 0 < total then (kv.2.1 : ℚ) / (total : ℚ) else 0),
       (if 0 < total then (kv.2.2 : ℚ) / (total : ℚ) else 0)⟩))

/-! ## ResponseTimeAnalyzer (`page.tsx` lines 909–958)

The source stores response gaps as floating-point hours
(`diffMs / 3600000`) and compares them with 0 and 168.  Division by the
positive constant 3600000 is strictly monotone and exact on the
rationals, so gaps are carried here as integer milliseconds — ordering,
the window test (`0 < g < 168 h` iff `0 < gMs < 604800000`), and the
median's sort are identical — and converted to hours (`ℚ`) where the
source reads them out. -/

def sortByDate (msgs : List PMsg) : List PMsg :=
  List.insertionSort (fun a b => a.date ≤ b.date) msgs

def adjacentPairs {α : Type} (l : List α) : List (α × α) := l.zip l.tail

def msToHours (g : ℤ) : ℚ := (g : ℚ) / 3600000

/-- Qualifying adjacent pair (`page.tsx` lines 918–920): senders
differ and the gap lies strictly between 0 and one week. -/
def rtQualifies (p c : PMsg) : Bool :=
  (p.isFromMe != c.isFromMe) && (0 < c.date - p.date) && (c.date - p.date < 604800000)

/-- Recorded you→them gaps (ms) for a month: pairs where they wrote
`p` and you replied with `c`, keyed by the responding message's month. -/
def gapsYouToThem (msgs : List PMsg) (month : String) : List ℤ :=
  (adjacentPairs (sortByDate msgs)).filterMap (fun pc =>
    if rtQualifies pc.1 pc.2 && !pc.1.isFromMe && pc.2.isFromMe && pc.2.monthKey = month
    then some (pc.2.date - pc.1.date) else none)

/-- Recorded them→you gaps (ms) for a month. -/
def gapsThemToYou (msgs : List PMsg) (month : String) : List ℤ :=
  (adjacentPairs (sortByDate msgs)).filterMap (fun pc =>
    if rtQualifies pc.1 pc.2 && pc.1.isFromMe && !pc.2.isFromMe && pc.2.monthKey = month
    then some (pc.2.date - pc.1.date) else none)

def sortInts (l : List ℤ) : List ℤ := List.insertionSort (· ≤ ·) l

/-- The `median` helper (`page.tsx` lines 943–950) on millisecond gaps,
producing hours: `null` on an empty list, the middle element when odd,
the mean of the two middles when even. -/
def medianHours (l : List ℤ) : Option ℚ :=
  if l.length = 0 then none
  else
    let s := sortInts l
    let mid := l.length / 2
    if l.length % 2 = 0 then
      some ((msToHours (s.getD (mid - 1) 0) + msToHours (s.getD mid 0)) / 2)
    else some (msToHours (s.getD mid 0))

/-- Months present in either direction's map, in first-occurrence order
per direction, then deduplicated and sorted (`page.tsx` line 936). -/
def rtMonths (msgs : List PMsg) : List String :=
  let you := jsSetDedup ((adjacentPairs (sortByDate msgs)).filterMap (fun pc =>
    if rtQualifies pc.1 pc.2 && !pc.1.isFromMe && pc.2.isFromMe
    then some pc.2.monthKey else none))
  let them := jsSetDedup ((adjacentPairs (sortByDate msgs)).filterMap (fun pc =>
    if rtQualifies pc.1 pc.2 && pc.1.isFromMe && !pc.2.isFromMe
    then some pc.2.monthKey else none))
  List.insertionSort (· ≤ ·) (jsSetDedup (you ++ them))

structure RTEntry where
  month : String
  youToThem : Option ℚ
  themToYou : Option ℚ
deriving DecidableEq

def responseTimeData (msgs : List PMsg) : List RTEntry :=
  (rtMonths msgs).map (fun m =>
    ⟨m, medianHours (gapsYouToThem msgs m), medianHours (gapsThemToYou msgs m)⟩)

/-! ## ConversationSegmenter and ReplyLadder (`page.tsx` lines 960–1024) -/

/-- The 24-hour gap in milliseconds; `timeDiffHours ≥ 24` iff
`diffMs ≥ 86400000` (division by 3600000 is exact and monotone on ℚ,
and cannot cross the boundary under double rounding since the boundary
value is exactly representable). -/
def gapLimitMs : ℤ := 86400000

/-- The segmentation loop (`page.tsx` lines 982–1004): `cur` is the
conversation being built (nonempty, ending in `prev`). -/
def segGo (prev : PMsg) (cur : List PMsg) : List PMsg → List (List PMsg)
  | [] => [cur]
  | c :: rest =>
    if gapLimitMs ≤ c.date - prev.date then cur :: segGo c [c] rest
    else segGo c (cur ++ [c]) rest

/-- Partition a chronological message list into conversations: a new
conversation starts at every gap of 24 hours or more. -/
def segmentConversations : List PMsg → List (List PMsg)
  | [] => []
  | m :: rest => segGo m [m] rest

structure ReplyLadder where
  doubleTextsYou : ℕ
  doubleTextsThem : ℕ
  endersYou : ℕ
  endersThem : ℕ
deriving DecidableEq

/-- Double texts (`page.tsx` lines 966–975): adjacent same-sender pairs
within 5 minutes (`timeDiffMinutes < 5` iff `diffMs < 300000`). -/
def doubleTextCounts (sorted : List PMsg) : ℕ × ℕ :=
  (adjacentPairs sorted).foldl (fun acc pc =>
    if pc.2.date - pc.1.date < 300000 && (pc.1.isFromMe == pc.2.isFromMe) then
      (if pc.1.isFromMe then (acc.1 + 1, acc.2) else (acc.1, acc.2 + 1))
    else acc) (0, 0)

/-- Conversation enders (`page.tsx` lines 1006–1016): the sender of
each conversation's last message. -/
def endersCounts (sorted : List PMsg) : ℕ × ℕ :=
  (segmentConversations sorted).foldl (fun acc conv =>
    match conv.getLast? with
    | some m => if m.isFromMe then (acc.1 + 1, acc.2) else (acc.1, acc.2 + 1)
    | none => acc) (0, 0)

def replyLadderData (msgs : List PMsg) : ReplyLadder :=
  let sorted := sortByDate msgs
  let dt := doubleTextCounts sorted
  let en := endersCounts sorted
  ⟨dt.1, dt.2, en.1, en.2⟩

/-! ## Sentiment trends (`page.tsx` lines 1026–1059) -/

def avgQ (l : List ℚ) : Option ℚ :=
  if l.length = 0 then none else some (l.sum / l.length)

structure STEntry where
  labelDay : ℤ
  you : Option ℚ
  them : Option ℚ
  allSenders : Option ℚ
deriving DecidableEq

/-- Weekly sentiment averages: weeks in first-occurrence order, each
with per-sender and overall averages (`null` when a sender has no
messages that week); labelled by the first message's week-start day and
sorted by it.  The `new Date()` fallback for an empty week is
unreachable (every key comes from a message) and modelled as day 0. -/
def sentimentTrends (msgs : List PMsg) : List STEntry :=
  sortKeyAscZ (fun e => e.labelDay)
    ((jsSetDedup (msgs.map (fun m => m.weekKey))).map (fun w =>
      let weekMsgs := msgs.filter (fun m => m.weekKey = w)
      let labelDay := match weekMsgs.head? with
        | some m => wwLabelDay m.date
        | none => 0
      ⟨labelDay,
       avgQ ((weekMsgs.filter (fun m => m.isFromMe)).map (fun m => m.sentiment)),
       avgQ ((weekMsgs.filter (fun m => !m.isFromMe)).map (fun m => m.sentiment)),
       avgQ (weekMsgs.map (fun m => m.sentiment))⟩))

/-! ## EmojiExtractor and WrappedStatsCollector (`page.tsx` lines 1061–1206)

Grapheme segmentation (`Intl.Segmenter`) is external; it enters as a
parameter `seg : String → List (List Char)`. -/

def bumpG (k : List Char) : List (List Char × ℕ) → List (List Char × ℕ)
  | [] => [(k, 1)]
  | kv :: rest => if kv.1 = k then (kv.1, kv.2 + 1) :: rest else kv :: bumpG k rest

/-- Emoji tally for one sender (`page.tsx` lines 1172–1183): segment
each of the sender's messages into grapheme clusters, keep the clusters
classified as emoji, and count occurrences in insertion order. -/
def emojiTally (seg : String → List (List Char)) (msgs : List PMsg) (isMe : Bool) :
    List (List Char × ℕ) :=
  (msgs.filter (fun m => m.isFromMe == isMe)).foldl
    (fun acc m => ((seg m.text).filter isEmojiGrapheme).foldl (fun a g => bumpG g a) acc) []

/-- Lookup in an emoji tally (0 when absent). -/
def tallyGet (l : List (List Char × ℕ)) (k : List Char) : ℕ :=
  match l.find? (fun kv => kv.1 = k) with
  | some kv => kv.2
  | none => 0

structure LongMsg where
  text : String
  len : ℕ
  isFromMe : Bool
  dateMs : ℤ
deriving DecidableEq

structure WrappedStats where
  mostActiveDay : Option (ℤ × ℕ)
  longestText : Option LongMsg
  longestTextYou : Option LongMsg
  longestTextThem : Option LongMsg
  longestTexts : List LongMsg
  topEmojis : List (List Char × ℕ × Bool)
  totalMessagesYou : ℕ
  totalMessagesThem : ℕ
  totalWordsYou : ℕ
  totalWordsThem : ℕ
deriving DecidableEq

/-- Keep the incumbent unless the challenger is strictly longer
(`page.tsx` lines 1108–1134). -/
def keepLonger (cur : Option LongMsg) (m : LongMsg) : Option LongMsg :=
  match cur with
  | none => some m
  | some c => if m.len > c.len then some m else some c

def bumpDay (k : ℤ) : List (ℤ × ℕ) → List (ℤ × ℕ)
  | [] => [(k, 1)]
  | kv :: rest => if kv.1 = k then (kv.1, kv.2 + 1) :: rest else kv :: bumpDay k rest

/-- WrappedStats (`page.tsx` lines 1061–1206): totals, the most active
calendar day (UTC day of `toISOString`), longest messages, the top-10
longest-message list, and the merged top-emoji list. -/
def wrappedStatsData (seg : String → List (List Char)) (msgs : List PMsg) : WrappedStats :=
  let longs := msgs.map (fun m => LongMsg.mk m.text m.text.length m.isFromMe m.date)
  let dayCounts := msgs.foldl (fun acc m => bumpDay (epochDayOfMs m.date) acc) []
  let tallyYou := emojiTally seg msgs true
  let tallyThem := emojiTally seg msgs false
  let topYou := (sortKeyDesc (fun kv => kv.2) tallyYou).take 5 |>.map
    (fun kv => (kv.1, kv.2, true))
  let topThem := (sortKeyDesc (fun kv => kv.2) tallyThem).take 5 |>.map
    (fun kv => (kv.1, kv.2, false))
  { mostActiveDay := (sortKeyDesc (fun kv => kv.2) dayCounts).head?
    longestText := longs.foldl keepLonger none
    longestTextYou := (longs.filter (fun m => m.isFromMe)).foldl keepLonger none
    longestTextThem := (longs.filter (fun m => !m.isFromMe)).foldl keepLonger none
    longestTexts := (sortKeyDesc (fun m => m.len) longs).take 10
    topEmojis := (sortKeyDesc (fun e => e.2.1) (topYou ++ topThem)).take 10
    totalMessagesYou := (msgs.filter (fun m => m.isFromMe)).length
    totalMessagesThem := (msgs.filter (fun m => !m.isFromMe)).length
    totalWordsYou := ((msgs.filter (fun m => m.isFromMe)).map (fun m => m.wordCount)).sum
    totalWordsThem := ((msgs.filter (fun m => !m.isFromMe)).map (fun m => m.wordCount)).sum }

/-! ## The pipeline driver (`processAllVisualizations`, lines 618–1212) -/

structure VizState where
  heatmap : List HeatCell
  wordsPerWeek : List WWEntry
  wordsPerWeekMessages : List WMsg
  conversationShare : List CSEntry
  responseTime : List RTEntry
  replyLadder : Option ReplyLadder
  sentiment : List STEntry
  reactionCount : ℕ
  attributedBodyCount : ℕ
  wrappedStats : Option WrappedStats
deriving DecidableEq

/-- `processAllVisualizations`: reset the reaction and
attributed-body counters, run the query (its result sets are the
input; an empty list models zero rows), and either clear the listed
visualization results and return, or process all messages and set
every result.  `cutoff` models `sixMonthsAgo` (computed from the
processing-time clock). -/
def processAllVisualizations (parse : List Nat → Option (List PVal)) (score : String → ℤ)
    (seg : String → List (List Char)) (filterReactions : Bool) (cutoff : ℤ)
    (prev : VizState) (messagesResult : List (List RawRow)) : VizState :=
  let prev0 := { prev with reactionCount := 0, attributedBodyCount := 0 }
  match messagesResult with
  | [] =>
    { prev0 with
      heatmap := []
      wordsPerWeek := []
      wordsPerWeekMessages := []
      conversationShare := []
      responseTime := []
      replyLadder := none
      sentiment := [] }
  | rows :: _ =>
    let nr := normalizeRows parse score filterReactions rows
    let msgs := nr.msgs
    { heatmap := heatmapData msgs
      wordsPerWeek := wordsPerWeekData msgs cutoff
      wordsPerWeekMessages := wordsPerWeekMsgsData msgs cutoff
      conversationShare := conversationShareData msgs cutoff
      responseTime := responseTimeData msgs
      replyLadder := some (replyLadderData msgs)
      sentiment := sentimentTrends msgs
      reactionCount := nr.reactionsFiltered
      attributedBodyCount := nr.withAttributedBody - nr.decodedCount
      wrappedStats := some (wrappedStatsData seg msgs) }

/-! ## Object-graph semantics of the string harvest (for claim C8)

`searchObject` above is total on parsed *trees*.  A JS object graph can
be self-referential, so to settle termination questions the same
recursion is re-expressed over an explicit store of possibly-cyclic
objects: `store.get? i` dereferences object `i`.  `searchObjectF` is
the fuel-indexed evaluation of the source's recursion; `none` means the
recursion has not completed within the given fuel. -/

inductive GObj where
  | gstr (s : String)
  | garr (refs : List Nat)
  | gdict (kvs : List (String × Nat))

/-- Children visited by the source's recursion: every array element;
every object value except under the `$class` / `$classes` keys. -/
def refsOf : GObj → List Nat
  | .gstr _ => []
  | .garr rs => rs
  | .gdict kvs => kvs.filterMap (fun kv =>
      if kv.1 ≠ "$class" && kv.1 ≠ "$classes" then some kv.2 else none)

/-- Sequence the recursive calls on a list of children, propagating
fuel exhaustion. -/
def joinChildren (f : Nat → Option (List String)) : List Nat → Option (List String)
  | [] => some []
  | r :: rs =>
    match f r with
    | none => none
    | some l =>
      match joinChildren f rs with
      | none => none
      | some l2 => some (l ++ l2)

/-- Fuel-indexed evaluation of the `searchObject` recursion on an
object store.  A dangling reference is JS `undefined` and contributes
nothing. -/
def searchObjectF (store : List GObj) : Nat → Nat → Option (List String)
  | 0, _ => none
  | fuel + 1, r =>
    match store.get? r with
    | none => some []
    | some (.gstr s) => some (if 0 < s.length then [s] else [])
    | some (.garr rs) => joinChildren (searchObjectF store fuel) (refsOf (.garr rs))
    | some (.gdict kvs) => joinChildren (searchObjectF store fuel) (refsOf (.gdict kvs))

/-- The harvest terminates on object `r`: some finite fuel completes. -/
def SearchTerminates (store : List GObj) (r : Nat) : Prop :=
  ∃ n, (searchObjectF store n r).isSome = true

/-- A one-object cyclic store: object 0 is an array containing itself
(the graph a corrupt or adversarial container can produce). -/
def cycStore : List GObj := [GObj.garr [0]]

/-! ## Claim C1: decoder determinism -/

/-- C1: the payload decoder is deterministic.  For any behaviour of the
external bplist parser and any two byte buffers with identical
content, `decodeAttributedBody` produces identical results — the same
decoded text on success and the same diagnostic counts on failure. -/
theorem decode_deterministic :
    ∀ (parse : List Nat → Option (List PVal)) (b1 b2 : List Nat),
      b1 = b2 → decodeAttributedBody parse b1 = decodeAttributedBody parse b2 := by
  intro parse b1 b2 h
  rw [h]

theorem decode_deterministic_witness :
    decodeAttributedBody (fun _ => none) [104, 105] =
      decodeAttributedBody (fun _ => none) [104, 105] :=
  decode_deterministic (fun _ => none) [104, 105] [104, 105] rfl

/-! ## Claim C10: empty query clears the visualization results -/

/-- C10: when the message query yields zero rows, the pipeline returns
without further processing and sets the heatmap, words-per-week (and
its preview list), conversation-ratio, response-time and sentiment
results to empty arrays and the reply ladder to null; the counters had
already been reset to 0. -/
theorem empty_query_clears_results :
    ∀ parse score seg fr cutoff prev,
      processAllVisualizations parse score seg fr cutoff prev [] =
        { prev with
          heatmap := []
          wordsPerWeek := []
          wordsPerWeekMessages := []
          conversationShare := []
          responseTime := []
          replyLadder := none
          sentiment := []
          reactionCount := 0
          attributedBodyCount := 0 } := by
  intro parse score seg fr cutoff prev
  rfl

/-! ## Claim C7: bare gender signs in the emoji tally -/

theorem tallyGet_bump (g k : List Char) (acc : List (List Char × ℕ)) :
    tallyGet (bumpG g acc) k = tallyGet acc k + (if g = k then 1 else 0) := by
  induction acc with
  | nil =>
    by_cases h : g = k <;> simp [bumpG, tallyGet, List.find?, h]
  | cons kv rest ih =>
    by_cases h1 : kv.1 = g
    · by_cases h2 : g = k <;> simp [bumpG, tallyGet, List.find?, h1, h2]
    · by_cases h3 : kv.1 = k
      · have hgk : ¬ g = k := by intro hgk; exact h1 (by rw [hgk, h3])
        have hkg : ¬ k = g := fun hkg => h1 (h3.trans hkg)
        simp [bumpG, tallyGet, List.find?, h1, h3, hgk, hkg]
      · simpa [bumpG, tallyGet, List.find?, h1, h3] using ih

theorem tallyGet_clusters (k : List Char) :
    ∀ (clusters : List (List Char)) (acc : List (List Char × ℕ)),
      tallyGet (clusters.foldl (fun a g => bumpG g a) acc) k =
        tallyGet acc k + clusters.count k := by
  intro clusters
  induction clusters with
  | nil => intro acc; simp
  | cons g rest ih =>
    intro acc
    have hc : (g :: rest).count k = rest.count k + (if g = k then 1 else 0) := by
      simp [List.count_cons, beq_iff_eq]
    simp only [List.foldl_cons, ih, tallyGet_bump, hc]
    omega

theorem tallyGet_emojiTally (seg : String → List (List Char)) (isMe : Bool) (k : List Char) :
    ∀ (msgs : List PMsg),
      tallyGet (emojiTally seg msgs isMe) k =
        ((msgs.filter (fun m => m.isFromMe == isMe)).flatMap
          (fun m => (seg m.text).filter isEmojiGrapheme)).count k := by
  have main : ∀ (ms : List PMsg) (acc : List (List Char × ℕ)),
      tallyGet (ms.foldl (fun acc m =>
        ((seg m.text).filter isEmojiGrapheme).foldl (fun a g => bumpG g a) acc) acc) k =
        tallyGet acc k + (ms.flatMap (fun m => (seg m.text).filter isEmojiGrapheme)).count k := by
    intro ms
    induction ms with
    | nil => intro acc; simp
    | cons m rest ih =>
      intro acc
      simp only [List.foldl_cons, ih, tallyGet_clusters, List.flatMap_cons, List.count_append]
      omega
  intro msgs
  have := main (msgs.filter (fun m => m.isFromMe == isMe)) []
  simpa [emojiTally, tallyGet] using this

/-- A message whose text is the bare female sign, for the C7
counterexample; `Intl.Segmenter` segments a one-code-point text into
that single cluster, modelled by `fun s => [s.data]`. -/
def genderMsg : PMsg :=
  ⟨0, String.mk [Char.ofNat 0x2640], true, 0, 0, 0, "Sunday", "w", "m", 0⟩

/-- C7 is false: a bare female sign U+2640, standing alone as its own
grapheme cluster, is classified as an emoji (it lies in the accepted
0x2600–0x26FF range) and contributes 1 to the sender's tally, not 0. -/
theorem emoji_gender_counterexample :
    isEmojiGrapheme [Char.ofNat 0x2640] = true ∧
    tallyGet (emojiTally (fun s => [s.data]) [genderMsg] true) [Char.ofNat 0x2640] = 1 := by
  constructor
  · decide
  · decide

/-- C7 (amended): bare gender-sign glyphs U+2640 and U+2642 are
classified as emoji by `isEmojiGrapheme`, and the tally counts every
emoji-classified grapheme cluster of a sender's messages exactly by
its number of occurrences — so bare gender signs contribute their full
occurrence count, they are not excluded. -/
theorem emoji_gender_amended :
    isEmojiGrapheme [Char.ofNat 0x2640] = true ∧
    isEmojiGrapheme [Char.ofNat 0x2642] = true ∧
    ∀ (seg : String → List (List Char)) (msgs : List PMsg) (isMe : Bool) (g : List Char),
      tallyGet (emojiTally seg msgs isMe) g =
        ((msgs.filter (fun m => m.isFromMe == isMe)).flatMap
          (fun m => (seg m.text).filter isEmojiGrapheme)).count g := by
  refine ⟨by decide, by decide, ?_⟩
  intro seg msgs isMe g
  exact tallyGet_emojiTally seg isMe g msgs

/-! ## Claim C8: termination of the string harvest -/

theorem cyc_searchObjectF_none : ∀ n, searchObjectF cycStore n 0 = none := by
  intro n
  induction n with
  | zero => rfl
  | succ n ih =>
    have h0 : searchObjectF [GObj.garr [0]] n 0 = none := ih
    simp [searchObjectF, cycStore, refsOf, joinChildren, h0]

/-- C8 is false: the harvest is plain recursion with no worklist and no
visited set, and on the one-object cyclic store (an array containing
itself) no amount of fuel completes the recursion — it does not
terminate on every container object graph. -/
theorem harvest_termination_counterexample : ¬ SearchTerminates cycStore 0 := by
  rintro ⟨n, h⟩
  rw [cyc_searchObjectF_none n] at h
  simp at h

theorem joinChildren_congr (f g : Nat → Option (List String))
    (h : ∀ j l, f j = some l → g j = some l) :
    ∀ (rs : List Nat) (L : List String), joinChildren f rs = some L → joinChildren g rs = some L := by
  intro rs
  induction rs with
  | nil => intro L hL; simpa [joinChildren] using hL
  | cons r rs ih =>
    intro L hL
    simp only [joinChildren] at hL ⊢
    cases hf : f r with
    | none => rw [hf] at hL; exact absurd hL (by simp)
    | some l =>
      rw [hf] at hL
      cases hj : joinChildren f rs with
      | none => rw [hj] at hL; exact absurd hL (by simp)
      | some l2 =>
        rw [hj] at hL
        rw [h r l hf, ih l2 hj]
        exact hL

theorem searchObjectF_mono (store : List GObj) :
    ∀ (m n r : Nat) (L : List String), m ≤ n →
      searchObjectF store m r = some L → searchObjectF store n r = some L := by
  intro m
  induction m with
  | zero => intro n r L _ h; exact absurd h (by simp [searchObjectF])
  | succ m ih =>
    intro n r L hmn h
    obtain ⟨n', rfl⟩ : ∃ n', n = n' + 1 := ⟨n - 1, by omega⟩
    have hmn' : m ≤ n' := by omega
    simp only [searchObjectF] at h ⊢
    cases hg : store.get? r with
    | none => rw [hg] at h; exact h
    | some o =>
      rw [hg] at h
      cases o with
      | gstr s => exact h
      | garr rs =>
        exact joinChildren_congr _ _ (fun j l hj => ih n' j l hmn' hj) _ L h
      | gdict kvs =>
        exact joinChildren_congr _ _ (fun j l hj => ih n' j l hmn' hj) _ L h

theorem joinChildren_isSome (f : Nat → Option (List String)) :
    ∀ rs : List Nat, (∀ j ∈ rs, (f j).isSome = true) → (joinChildren f rs).isSome = true := by
  intro rs
  induction rs with
  | nil => intro _; simp [joinChildren]
  | cons r rs ih =>
    intro h
    have h1 : (f r).isSome = true := h r (by simp)
    have h2 : (joinChildren f rs).isSome = true := ih (fun j hj => h j (by simp [hj]))
    simp only [joinChildren]
    cases hf : f r with
    | none => rw [hf] at h1; simp at h1
    | some l =>
      cases hj : joinChildren f rs with
      | none => rw [hj] at h2; simp at h2
      | some l2 => simp

/-- C8 (amended): the harvest is direct recursion without a worklist
or visited set.  It does terminate on every acyclic store — whenever
every object only references strictly smaller indices (the shape an
honest parse produces), fuel `r + 1` completes the recursion from
object `r` — but not on cyclic stores (see the counterexample). -/
theorem harvest_termination_amended :
    ∀ (store : List GObj),
      (∀ i o, store.get? i = some o → ∀ j ∈ refsOf o, j < i) →
      ∀ r, (searchObjectF store (r + 1) r).isSome = true := by
  intro store hacy r
  induction r using Nat.strong_induction_on with
  | _ r ih =>
    simp only [searchObjectF]
    cases hg : store.get? r with
    | none => simp
    | some o =>
      cases o with
      | gstr s => simp
      | garr rs =>
        refine joinChildren_isSome _ _ (fun j hj => ?_)
        have hjr : j < r := hacy r (.garr rs) hg j hj
        have := ih j hjr
        obtain ⟨L, hL⟩ := Option.isSome_iff_exists.mp this
        have := searchObjectF_mono store (j + 1) r j L (by omega) hL
        simp [this]
      | gdict kvs =>
        refine joinChildren_isSome _ _ (fun j hj => ?_)
        have hjr : j < r := hacy r (.gdict kvs) hg j hj
        have := ih j hjr
        obtain ⟨L, hL⟩ := Option.isSome_iff_exists.mp this
        have := searchObjectF_mono store (j + 1) r j L (by omega) hL
        simp [this]

theorem harvest_termination_witness :
    (searchObjectF [GObj.gstr "hi"] 1 0).isSome = true :=
  harvest_termination_amended [GObj.gstr "hi"]
    (fun i o h j hj => by
      match i with
      | 0 =>
        simp [List.get?] at h
        rw [← h] at hj
        simp [refsOf] at hj
      | Nat.succ i => simp [List.get?] at h)
    0

/-! ## Claim C9: normalized messages have non-blank text -/

theorem rowToMsg_kept (parse : List Nat → Option (List PVal)) (score : String → ℤ)
    (fr : Bool) (row : RawRow) (m : PMsg) (b : Bool) (a d : ℕ)
    (h : rowToMsg parse score fr row = (some m, b, a, d)) :
    isBlank m.text = false := by
  unfold rowToMsg at h
  cases hr : resolveRowText parse row with
  | mk t? rest =>
    rw [hr] at h
    cases t? with
    | none => simp at h
    | some t =>
      simp only at h
      by_cases hb : isBlank t
      · simp [hb] at h
      · by_cases hrx : fr && isReactionMessage t
        · simp [hb, hrx] at h
        · simp [hb, hrx] at h
          have : m.text = t := by rw [← h.1]; rfl
          rw [this]
          exact Bool.not_eq_true _ ▸ (by simpa using hb)

/-- C9: every message that survives normalization has genuinely
non-blank text — never empty and never whitespace-only — and a record
whose resolved text is missing or blank is dropped, so no blank-text
message is ever handed to any aggregator. -/
theorem normalized_text_nonempty :
    (∀ parse score fr rows m, m ∈ (normalizeRows parse score fr rows).msgs →
      m.text ≠ "" ∧ jsTrim m.text ≠ "") ∧
    (∀ parse score fr row, (resolveRowText parse row).1 = none →
      (normalizeRows parse score fr [row]).msgs = []) ∧
    (∀ parse score fr row t, (resolveRowText parse row).1 = some t → isBlank t = true →
      (normalizeRows parse score fr [row]).msgs = []) := by
  refine ⟨?_, ?_, ?_⟩
  · intro parse score fr rows
    induction rows with
    | nil => intro m hm; simp [normalizeRows] at hm
    | cons row rest ih =>
      intro m hm
      simp only [normalizeRows] at hm
      cases hrow : (rowToMsg parse score fr row).1 with
      | none => rw [hrow] at hm; exact ih m hm
      | some m0 =>
        rw [hrow] at hm
        simp only [List.mem_cons] at hm
        cases hm with
        | inl he =>
          subst he
          have hb : isBlank m.text = false := by
            have hfull : rowToMsg parse score fr row =
                ((rowToMsg parse score fr row).1, (rowToMsg parse score fr row).2.1,
                  (rowToMsg parse score fr row).2.2.1, (rowToMsg parse score fr row).2.2.2) := rfl
            exact rowToMsg_kept parse score fr row m _ _ _ (by rw [hfull, hrow])
          unfold isBlank at hb
          simp only [Bool.or_eq_false_iff, decide_eq_false_iff_not] at hb
          exact ⟨hb.1, hb.2⟩
        | inr ht => exact ih m ht
  · intro parse score fr row h
    simp [normalizeRows, rowToMsg, h]
    cases hr : resolveRowText parse row with
    | mk t? rest => rw [hr] at h; simp only at h; subst h; simp
  · intro parse score fr row t h hb
    cases hr : resolveRowText parse row with
    | mk t? rest =>
      rw [hr] at h
      simp only at h
      subst h
      simp [normalizeRows, rowToMsg, hr, hb]

theorem normalized_text_nonempty_witness :
    (mkPMsg (fun _ => 0) 0 "hi" true).text ≠ "" ∧
      jsTrim (mkPMsg (fun _ => 0) 0 "hi" true).text ≠ "" :=
  normalized_text_nonempty.1 (fun _ => none) (fun _ => 0) true
    [⟨0, some "hi", true, none⟩] (mkPMsg (fun _ => 0) 0 "hi" true)
    (by decide)

/-! ## Claim C5: the reaction filter -/

theorem reactScan_complete_some :
    ∀ (mid : List Char) (post : List Char) (d : Nat),
      (∀ c ∈ mid, isLineTerm c = false) → 1 ≤ d + mid.length →
      reactScan (mid ++ apos :: post) (some d) = true := by
  intro mid
  induction mid with
  | nil =>
    intro post d _ hd
    simp only [List.nil_append, reactScan, if_pos rfl]
    have : 1 ≤ d := by simpa using hd
    simp [this]
  | cons c mid' ih =>
    intro post d hlt hd
    have hc : isLineTerm c = false := hlt c (by simp)
    have hlt' : ∀ x ∈ mid', isLineTerm x = false := fun x hx => hlt x (by simp [hx])
    by_cases hca : c = apos
    · subst hca
      by_cases hd1 : 1 ≤ d
      · simp [reactScan, hd1]
      · simp only [List.cons_append, reactScan, if_pos rfl]
        have : ¬ 1 ≤ d := hd1
        simp only [this, if_false]
        exact ih post 1 hlt' (by omega)
    · simp only [List.cons_append, reactScan, if_neg hca, hc, if_false, Option.map_some]
      exact ih post (d + 1) hlt' (by omega)

theorem reactScan_complete :
    ∀ (pre mid post : List Char) (st : Option Nat),
      mid ≠ [] → (∀ c ∈ mid, isLineTerm c = false) →
      reactScan (pre ++ apos :: (mid ++ apos :: post)) st = true := by
  intro pre
  induction pre with
  | nil =>
    intro mid post st hne hlt
    simp only [List.nil_append, reactScan, if_pos rfl]
    have hlen : 1 ≤ mid.length := by
      cases mid with
      | nil => exact absurd rfl hne
      | cons a l => simp
    cases st with
    | none => exact reactScan_complete_some mid post 0 hlt (by omega)
    | some d =>
      by_cases hd : 1 ≤ d
      · simp [hd]
      · simp only [hd, if_false]
        exact reactScan_complete_some mid post 1 hlt (by omega)
  | cons p pre' ih =>
    intro mid post st hne hlt
    simp only [List.cons_append, reactScan]
    by_cases hpa : p = apos
    · subst hpa
      simp only [if_pos rfl]
      cases st with
      | none => exact ih mid post (some 0) hne hlt
      | some d =>
        by_cases hd : 1 ≤ d
        · simp [hd]
        · simp only [hd, if_false]
          exact ih mid post (some 1) hne hlt
    · simp only [if_neg hpa]
      by_cases hpl : isLineTerm p
      · simp only [hpl, if_true]
        exact ih mid post none hne hlt
      · simp only [hpl, if_false]
        exact ih mid post (st.map (· + 1)) hne hlt

theorem rowToMsg_kept_reaction (parse : List Nat → Option (List PVal)) (score : String → ℤ)
    (row : RawRow) (m : PMsg) (b : Bool) (a d : ℕ)
    (h : rowToMsg parse score true row = (some m, b, a, d)) :
    isReactionMessage m.text = false := by
  unfold rowToMsg at h
  cases hr : resolveRowText parse row with
  | mk t? rest =>
    rw [hr] at h
    cases t? with
    | none => simp at h
    | some t =>
      simp only at h
      by_cases hb : isBlank t
      · simp [hb] at h
      · by_cases hrx : isReactionMessage t
        · simp [hb, hrx] at h
        · simp [hb, hrx] at h
          have : m.text = t := by rw [← h.1]; rfl
          rw [this]
          exact Bool.not_eq_true _ ▸ (by simpa using hrx)

/-- The claim's notion of "contains a substring delimited by a pair of
single-quote characters": the text decomposes around a nonempty
quoted middle (no restriction on its characters). -/
def containsQuotedSubstring (s : String) : Prop :=
  ∃ pre mid post : List Char, mid ≠ [] ∧ s.data = pre ++ apos :: (mid ++ apos :: post)

/-- The text `'a\nb'`: a quoted substring containing a newline. -/
def quotedNewlineText : String := String.mk [apos, 'a', '\n', 'b', apos]

/-- C5 is false as stated: `'a\nb'` contains a substring delimited by a
pair of single quotes, yet with the reaction filter enabled the
message is retained (the JS `.` in `/'.+?'/` does not match a line
terminator) and the reactions-filtered tally stays 0. -/
theorem reaction_filter_counterexample :
    containsQuotedSubstring quotedNewlineText ∧
    isReactionMessage quotedNewlineText = false ∧
    (normalizeRows (fun _ => none) (fun _ => 0) true
      [⟨0, some quotedNewlineText, true, none⟩]).msgs.length = 1 ∧
    (normalizeRows (fun _ => none) (fun _ => 0) true
      [⟨0, some quotedNewlineText, true, none⟩]).reactionsFiltered = 0 := by
  refine ⟨⟨[], ['a', '\n', 'b'], [], by decide, by decide⟩, by decide, by decide, by decide⟩

/-- C5 (amended): with the filter enabled, every message whose text
contains a *line-terminator-free* nonempty substring delimited by a
pair of single quotes is dropped and counted in the reactions-filtered
tally, and no retained message matches the reaction pattern; with the
filter disabled, the same message is retained with its text unchanged
and its word count computed from that exact text.  (A quoted substring
containing a line terminator does not trigger the filter — see the
counterexample.) -/
theorem reaction_filter_amended :
    (∀ pre mid post : List Char, mid ≠ [] → (∀ c ∈ mid, isLineTerm c = false) →
      isReactionMessage (String.mk (pre ++ apos :: (mid ++ apos :: post))) = true) ∧
    (∀ parse score (row : RawRow) t, row.text = some t → isBlank t = false →
      isReactionMessage t = true →
      normalizeRows parse score true [row] = ⟨[], 1, 0, 0⟩) ∧
    (∀ parse score rows m, m ∈ (normalizeRows parse score true rows).msgs →
      isReactionMessage m.text = false) ∧
    (∀ parse score (row : RawRow) t, row.text = some t → isBlank t = false →
      normalizeRows parse score false [row] =
        ⟨[mkPMsg score row.dateNs t row.isFromMe], 0, 0, 0⟩ ∧
      (mkPMsg score row.dateNs t row.isFromMe).text = t ∧
      (mkPMsg score row.dateNs t row.isFromMe).wordCount = countWordsStr t) := by
  refine ⟨?_, ?_, ?_, ?_⟩
  · intro pre mid post hne hlt
    exact reactScan_complete pre mid post none hne hlt
  · intro parse score row t ht hb hrx
    simp [normalizeRows, rowToMsg, resolveRowText, ht, hb, hrx]
  · intro parse score rows
    induction rows with
    | nil => intro m hm; simp [normalizeRows] at hm
    | cons row rest ih =>
      intro m hm
      simp only [normalizeRows] at hm
      cases hrow : (rowToMsg parse score true row).1 with
      | none => rw [hrow] at hm; exact ih m hm
      | some m0 =>
        rw [hrow] at hm
        simp only [List.mem_cons] at hm
        cases hm with
        | inl he =>
          subst he
          have hfull : rowToMsg parse score true row =
              ((rowToMsg parse score true row).1, (rowToMsg parse score true row).2.1,
                (rowToMsg parse score true row).2.2.1,
                (rowToMsg parse score true row).2.2.2) := rfl
          exact rowToMsg_kept_reaction parse score row m _ _ _ (by rw [hfull, hrow])
        | inr ht => exact ih m ht
  · intro parse score row t ht hb
    refine ⟨?_, rfl, rfl⟩
    simp [normalizeRows, rowToMsg, resolveRowText, ht, hb]

/-- The English reaction notification used by the spec's example. -/
def reactionExampleText : String :=
  "Reacted " ++ aposStr ++ "lol" ++ aposStr ++ " to your message"

theorem reaction_filter_witness :
    normalizeRows (fun _ => none) (fun _ => 0) true
      [⟨0, some reactionExampleText, false, none⟩] = ⟨[], 1, 0, 0⟩ :=
  reaction_filter_amended.2.1 (fun _ => none) (fun _ => 0)
    ⟨0, some reactionExampleText, false, none⟩ reactionExampleText rfl
    (by decide) (by decide)

/-! ## Claim C3: the heatmap -/

set_option maxRecDepth 10000

/-- The 168 `(day, hour)` cells in output order. -/
def heatPairs : List (String × ℕ) :=
  dayOrder.flatMap (fun d => (List.range 24).map (fun h => (d, h)))

theorem heatKeys_nodup : (heatPairs.map (fun p => heatKey p.1 p.2)).Nodup := by decide

theorem mapGetD_bump (k' k : String) (acc : List (String × ℕ)) :
    mapGetD (bumpCount k' acc) k = mapGetD acc k + (if k' = k then 1 else 0) := by
  induction acc with
  | nil =>
    by_cases h : k' = k <;> simp [bumpCount, mapGetD, List.find?, h]
  | cons kv rest ih =>
    by_cases h1 : kv.1 = k'
    · by_cases h2 : k' = k <;> simp [bumpCount, mapGetD, List.find?, h1, h2]
    · by_cases h3 : kv.1 = k
      · have hgk : ¬ k' = k := by intro hgk; exact h1 (by rw [hgk, h3])
        have hkg : ¬ k = k' := fun hkg => h1 (h3.trans hkg)
        simp [bumpCount, mapGetD, List.find?, h1, h3, hgk, hkg]
      · simpa [bumpCount, mapGetD, List.find?, h1, h3] using ih

theorem mapGetD_heatmapMap (k : String) :
    ∀ (msgs : List PMsg) (acc : List (String × ℕ)),
      mapGetD (msgs.foldl (fun a m => bumpCount (msgHeatKey m) a) acc) k =
        mapGetD acc k + msgs.countP (fun m => msgHeatKey m = k) := by
  intro msgs
  induction msgs with
  | nil => intro acc; simp
  | cons m rest ih =>
    intro acc
    simp only [List.foldl_cons, ih, mapGetD_bump, List.countP_cons]
    by_cases h : msgHeatKey m = k <;> simp [h] <;> omega

theorem heatmap_value (msgs : List PMsg) (k : String) :
    mapGetD (heatmapMap msgs) k = msgs.countP (fun m => msgHeatKey m = k) := by
  have := mapGetD_heatmapMap k msgs []
  simpa [heatmapMap, mapGetD] using this

theorem heatmapData_eq (msgs : List PMsg) :
    heatmapData msgs =
      heatPairs.map (fun p => ⟨p.1, p.2, mapGetD (heatmapMap msgs) (heatKey p.1 p.2)⟩) := by
  unfold heatmapData heatPairs
  rw [List.map_flatMap]
  congr 1

theorem sum_map_add {α : Type} (f g : α → ℕ) (l : List α) :
    (l.map (fun x => f x + g x)).sum = (l.map f).sum + (l.map g).sum := by
  induction l with
  | nil => simp
  | cons x xs ih => simp [ih]; omega

theorem sum_map_ite_eq_countP {α : Type} (p : α → Bool) (l : List α) :
    (l.map (fun x => if p x then 1 else 0)).sum = l.countP p := by
  induction l with
  | nil => simp
  | cons x xs ih =>
    simp only [List.map_cons, List.sum_cons, List.countP_cons, ih]
    by_cases h : p x <;> simp [h] <;> omega

theorem msgKey_count_one (m : PMsg) (hday : m.dayName ∈ dayOrder) (hhour : m.hour < 24) :
    heatPairs.countP (fun p => msgHeatKey m = heatKey p.1 p.2) = 1 := by
  have hmem : (m.dayName, m.hour) ∈ heatPairs := by
    unfold heatPairs
    exact List.mem_flatMap.mpr ⟨m.dayName, hday,
      List.mem_map.mpr ⟨m.hour, List.mem_range.mpr hhour, rfl⟩⟩
  have hkeymem : msgHeatKey m ∈ heatPairs.map (fun p => heatKey p.1 p.2) := by
    simp only [List.mem_map]
    exact ⟨(m.dayName, m.hour), hmem, rfl⟩
  have hc : heatPairs.countP (fun p => msgHeatKey m = heatKey p.1 p.2) =
      (heatPairs.map (fun p => heatKey p.1 p.2)).count (msgHeatKey m) := by
    rw [List.count_eq_countP, List.countP_map]
    apply List.countP_congr
    intro p _
    simp only [Function.comp]
    by_cases h : msgHeatKey m = heatKey p.1 p.2
    · simp [h]
    · simp [h, beq_iff_eq]
      intro hh
      exact h hh.symm
  rw [hc]
  have hle := List.nodup_iff_count_le_one.mp heatKeys_nodup (msgHeatKey m)
  have hpos := List.count_pos_iff.mpr hkeymem
  omega

/-- C3: for every processed message list whose entries carry a valid
day name and hour (which normalization guarantees), the heatmap has
exactly 168 cells — one per (day, hour) pair, Monday–Sunday × 0–23, in
order and without duplicates — every cell's value is the number of
messages with that day/hour key (hence 0 for a cell with no messages),
and the cell values sum to the number of accepted messages. -/
theorem heatmap_cells_sum :
    ∀ msgs : List PMsg,
      (∀ m ∈ msgs, m.dayName ∈ dayOrder ∧ m.hour < 24) →
      (heatmapData msgs).length = 168 ∧
      (heatmapData msgs).map (fun c => (c.day, c.hour)) = heatPairs ∧
      ((heatmapData msgs).map (fun c => (c.day, c.hour))).Nodup ∧
      (∀ c ∈ heatmapData msgs,
        c.value = msgs.countP (fun m => msgHeatKey m = heatKey c.day c.hour)) ∧
      (∀ c ∈ heatmapData msgs,
        (∀ m ∈ msgs, ¬(m.dayName = c.day ∧ m.hour = c.hour)) → c.value = 0) ∧
      ((heatmapData msgs).map (fun c => c.value)).sum = msgs.length := by
  intro msgs hvalid
  have hpairs : (heatmapData msgs).map (fun c => (c.day, c.hour)) = heatPairs := by
    rw [heatmapData_eq, List.map_map]
    have hid : ∀ p ∈ heatPairs,
        ((fun c : HeatCell => (c.day, c.hour)) ∘
          (fun p : String × ℕ =>
            (⟨p.1, p.2, mapGetD (heatmapMap msgs) (heatKey p.1 p.2)⟩ : HeatCell))) p = p := by
      intro p _
      rfl
    rw [List.map_congr_left hid]
    simp
  have hval : ∀ c ∈ heatmapData msgs,
      c.value = msgs.countP (fun m => msgHeatKey m = heatKey c.day c.hour) := by
    intro c hc
    rw [heatmapData_eq] at hc
    simp only [List.mem_map] at hc
    obtain ⟨p, _, rfl⟩ := hc
    exact heatmap_value msgs (heatKey p.1 p.2)
  refine ⟨?_, hpairs, ?_, hval, ?_, ?_⟩
  · have := congrArg List.length hpairs
    simpa using this
  · rw [hpairs]
    exact List.Nodup.of_map (fun p => heatKey p.1 p.2) heatKeys_nodup
  · intro c hc hnone
    rw [hval c hc]
    rw [List.countP_eq_zero]
    intro m hm
    simp only [decide_eq_true_eq]
    intro hkey
    have hcpair : (c.day, c.hour) ∈ heatPairs := by
      rw [← hpairs]
      simp only [List.mem_map]
      exact ⟨c, hc, rfl⟩
    have hmpair : (m.dayName, m.hour) ∈ heatPairs := by
      unfold heatPairs
      exact List.mem_flatMap.mpr ⟨m.dayName, (hvalid m hm).1,
        List.mem_map.mpr ⟨m.hour, List.mem_range.mpr (hvalid m hm).2, rfl⟩⟩
    have heqp : (m.dayName, m.hour) = (c.day, c.hour) :=
      List.inj_on_of_nodup_map heatKeys_nodup hmpair hcpair hkey
    have hd : m.dayName = c.day := congrArg Prod.fst heqp
    have hh : m.hour = c.hour := congrArg Prod.snd heqp
    exact hnone m hm ⟨hd, hh⟩
  · rw [heatmapData_eq, List.map_map]
    have hsum : ∀ ms : List PMsg, (∀ m ∈ ms, m.dayName ∈ dayOrder ∧ m.hour < 24) →
        (heatPairs.map ((fun c : HeatCell => c.value) ∘
          (fun p => (⟨p.1, p.2, mapGetD (heatmapMap ms) (heatKey p.1 p.2)⟩ : HeatCell)))).sum =
          ms.length := by
      intro ms
      induction ms with
      | nil =>
        intro _
        have : ∀ p ∈ heatPairs,
            ((fun c : HeatCell => c.value) ∘
              (fun p => (⟨p.1, p.2, mapGetD (heatmapMap []) (heatKey p.1 p.2)⟩ : HeatCell))) p
              = 0 := by
          intro p _
          simp [Function.comp, heatmap_value]
        rw [List.map_congr_left this]
        simp
      | cons m rest ih =>
        intro hv
        have hv' : ∀ x ∈ rest, x.dayName ∈ dayOrder ∧ x.hour < 24 :=
          fun x hx => hv x (by simp [hx])
        have hstep : ∀ p ∈ heatPairs,
            ((fun c : HeatCell => c.value) ∘
              (fun p => (⟨p.1, p.2, mapGetD (heatmapMap (m :: rest)) (heatKey p.1 p.2)⟩ :
                HeatCell))) p =
            (fun p : String × ℕ => rest.countP (fun x => msgHeatKey x = heatKey p.1 p.2)) p +
            (fun p : String × ℕ => if msgHeatKey m = heatKey p.1 p.2 then 1 else 0) p := by
          intro p _
          simp only [Function.comp, heatmap_value, List.countP_cons]
          by_cases h : msgHeatKey m = heatKey p.1 p.2 <;> simp [h]
        rw [List.map_congr_left hstep, sum_map_add]
        have h1 : (heatPairs.map
            (fun p : String × ℕ => rest.countP (fun x => msgHeatKey x = heatKey p.1 p.2))).sum =
            rest.length := by
          have := ih hv'
          rw [← this]
          apply congrArg
          apply List.map_congr_left
          intro p _
          simp [Function.comp, heatmap_value]
        have h2 : (heatPairs.map
            (fun p : String × ℕ => if msgHeatKey m = heatKey p.1 p.2 then 1 else 0)).sum = 1 := by
          have hs := sum_map_ite_eq_countP
            (fun p : String × ℕ => decide (msgHeatKey m = heatKey p.1 p.2)) heatPairs
          simp only [decide_eq_true_eq] at hs
          rw [hs]
          exact msgKey_count_one m (hv m (by simp)).1 (hv m (by simp)).2
        rw [h1, h2]
        simp
    exact hsum msgs hvalid

def heatWitnessMsg : PMsg := ⟨0, "hi", true, 1, 0, 4, "Thursday", "w", "m", 0⟩

theorem heatmap_cells_sum_witness :
    (heatmapData [heatWitnessMsg]).length = 168 ∧
    (heatmapData [heatWitnessMsg]).map (fun c => (c.day, c.hour)) = heatPairs ∧
    ((heatmapData [heatWitnessMsg]).map (fun c => (c.day, c.hour))).Nodup ∧
    (∀ c ∈ heatmapData [heatWitnessMsg],
      c.value = [heatWitnessMsg].countP (fun m => msgHeatKey m = heatKey c.day c.hour)) ∧
    (∀ c ∈ heatmapData [heatWitnessMsg],
      (∀ m ∈ [heatWitnessMsg], ¬(m.dayName = c.day ∧ m.hour = c.hour)) → c.value = 0) ∧
    ((heatmapData [heatWitnessMsg]).map (fun c => c.value)).sum = [heatWitnessMsg].length :=
  heatmap_cells_sum [heatWitnessMsg] (by decide)

/-! ## Claim C2: conversation segmentation -/

theorem chain_head_le_last :
    ∀ (l : List PMsg), List.Chain' (fun a b => a.date ≤ b.date) l →
      ∀ p, l.getLast? = some p → ∀ x, l.head? = some x → x.date ≤ p.date := by
  intro l
  induction l with
  | nil => intro _ p hp; simp at hp
  | cons a t ih =>
    intro hch p hp x hx
    have hxa : x = a := by simpa using hx.symm
    subst hxa
    cases t with
    | nil =>
      have : p = x := by simpa using hp.symm
      subst this
      exact le_refl _
    | cons b t2 =>
      have h1 : x.date ≤ b.date := (List.chain'_cons.mp hch).1
      have hp' : (b :: t2).getLast? = some p := by
        rw [← hp]
        exact (List.getLast?_cons_cons ..).symm
      have h2 := ih (List.chain'_cons.mp hch).2 p hp' b rfl
      exact le_trans h1 h2

theorem gapLimit_pos : (0 : ℤ) < gapLimitMs := by decide

theorem segGo_spec :
    ∀ (rest : List PMsg) (prev : PMsg) (cur : List PMsg),
      cur ≠ [] →
      cur.getLast? = some prev →
      List.Chain' (fun a b => a.date ≤ b.date) cur →
      List.Chain' (fun a b => a.date ≤ b.date) (prev :: rest) →
      List.Chain' (fun a b => b.date - a.date < gapLimitMs) cur →
      (∃ ext tail, segGo prev cur rest = (cur ++ ext) :: tail) ∧
      (segGo prev cur rest).flatten = cur ++ rest ∧
      (∀ c ∈ segGo prev cur rest, c ≠ []) ∧
      (∀ c ∈ segGo prev cur rest, List.Chain' (fun a b => a.date ≤ b.date) c) ∧
      (∀ c ∈ segGo prev cur rest, List.Chain' (fun a b => b.date - a.date < gapLimitMs) c) ∧
      List.Chain' (fun c1 c2 => ∀ x ∈ c1.getLast?, ∀ y ∈ c2.head?, gapLimitMs ≤ y.date - x.date)
        (segGo prev cur rest) ∧
      List.Chain' (fun c1 c2 => ∀ x ∈ c1.head?, ∀ y ∈ c2.head?, x.date < y.date)
        (segGo prev cur rest) := by
  intro rest
  induction rest with
  | nil =>
    intro prev cur hne hlast hsc _ hic
    refine ⟨⟨[], [], by simp [segGo]⟩, by simp [segGo], ?_, ?_, ?_, ?_, ?_⟩ <;>
      simp [segGo]
    · exact hne
    · exact hsc
    · exact hic
  | cons c rs ih =>
    intro prev cur hne hlast hsc hsr hic
    have hpc : prev.date ≤ c.date := (List.chain'_cons.mp hsr).1
    have hsr' : List.Chain' (fun a b => a.date ≤ b.date) (c :: rs) :=
      (List.chain'_cons.mp hsr).2
    by_cases hgap : gapLimitMs ≤ c.date - prev.date
    · have ihres := ih c [c] (by simp) (by simp) (by simp) hsr' (by simp)
      obtain ⟨⟨ext, tail, heq⟩, hflat, hnonempty, hschains, hichains, hinter, hstart⟩ := ihres
      have hunfold : segGo prev cur (c :: rs) = cur :: segGo c [c] rs := by
        simp [segGo, hgap]
      have hheadnext : (segGo c [c] rs).head? = some (c :: ext) := by
        rw [heq]; rfl
      refine ⟨⟨[], segGo c [c] rs, by simp [hunfold]⟩, ?_, ?_, ?_, ?_, ?_, ?_⟩
      · rw [hunfold, List.flatten_cons, hflat]; simp
      · intro c' hc'
        rw [hunfold] at hc'
        rcases List.mem_cons.mp hc' with h | h
        · subst h; exact hne
        · exact hnonempty c' h
      · intro c' hc'
        rw [hunfold] at hc'
        rcases List.mem_cons.mp hc' with h | h
        · subst h; exact hsc
        · exact hschains c' h
      · intro c' hc'
        rw [hunfold] at hc'
        rcases List.mem_cons.mp hc' with h | h
        · subst h; exact hic
        · exact hichains c' h
      · rw [hunfold]
        refine List.chain'_cons'.mpr ⟨?_, hinter⟩
        intro s hs x hx y hy
        rw [hheadnext] at hs
        have hs' : s = c :: ext := by
          have := hs; simp only [hheadnext] at *
          exact (by simpa using hs : c :: ext = s).symm
        subst hs'
        have hx' : x = prev := by
          rw [hlast] at hx
          exact (by simpa using hx : prev = x).symm
        have hy' : y = c := (by simpa using hy : c = y).symm
        subst hx'; subst hy'
        exact hgap
      · rw [hunfold]
        refine List.chain'_cons'.mpr ⟨?_, hstart⟩
        intro s hs x hx y hy
        rw [hheadnext] at hs
        have hs' : s = c :: ext := by
          have := hs; simp only [hheadnext] at *
          exact (by simpa using hs : c :: ext = s).symm
        subst hs'
        have hy' : y = c := (by simpa using hy : c = y).symm
        subst hy'
        have hxle : x.date ≤ prev.date := chain_head_le_last cur hsc prev hlast x hx
        have := gapLimit_pos
        omega
    · have hgap' : c.date - prev.date < gapLimitMs := by omega
      have hne' : cur ++ [c] ≠ [] := by simp
      have hlast' : (cur ++ [c]).getLast? = some c := by
        simp [List.getLast?_concat]
      have hedge : ∀ x ∈ cur.getLast?, ∀ y ∈ ([c] : List PMsg).head?, x.date ≤ y.date := by
        intro x hx y hy
        have hx' : x = prev := by
          rw [hlast] at hx
          exact (by simpa using hx : prev = x).symm
        have hy' : y = c := (by simpa using hy : c = y).symm
        subst hx'; subst hy'
        exact hpc
      have hedge2 : ∀ x ∈ cur.getLast?, ∀ y ∈ ([c] : List PMsg).head?,
          y.date - x.date < gapLimitMs := by
        intro x hx y hy
        have hx' : x = prev := by
          rw [hlast] at hx
          exact (by simpa using hx : prev = x).symm
        have hy' : y = c := (by simpa using hy : c = y).symm
        subst hx'; subst hy'
        exact hgap'
      have hsc' : List.Chain' (fun a b => a.date ≤ b.date) (cur ++ [c]) :=
        List.chain'_append.mpr ⟨hsc, by simp, hedge⟩
      have hic' : List.Chain' (fun a b => b.date - a.date < gapLimitMs) (cur ++ [c]) :=
        List.chain'_append.mpr ⟨hic, by simp, hedge2⟩
      have ihres := ih c (cur ++ [c]) hne' hlast' hsc' hsr' hic'
      obtain ⟨⟨ext, tail, heq⟩, hflat, hnonempty, hschains, hichains, hinter, hstart⟩ := ihres
      have hunfold : segGo prev cur (c :: rs) = segGo c (cur ++ [c]) rs := by
        simp [segGo, hgap]
      refine ⟨⟨[c] ++ ext, tail, ?_⟩, ?_, ?_, ?_, ?_, ?_, ?_⟩
      · rw [hunfold, heq]; simp
      · rw [hunfold, hflat]; simp
      · intro c' hc'; rw [hunfold] at hc'; exact hnonempty c' hc'
      · intro c' hc'; rw [hunfold] at hc'; exact hschains c' hc'
      · intro c' hc'; rw [hunfold] at hc'; exact hichains c' hc'
      · rw [hunfold]; exact hinter
      · rw [hunfold]; exact hstart

/-- C2: on a chronologically sorted non-empty message list, the
segmenter produces an exact partition: the conversations concatenate
back to the input (every message in exactly one conversation, in
order), every conversation is non-empty, every gap between consecutive
messages inside a conversation is strictly below 24 hours, every gap
between the last message of one conversation and the first of the next
is at least 24 hours, and conversations are ordered by start time. -/
theorem segmentation_partition :
    ∀ msgs : List PMsg, msgs ≠ [] →
      List.Chain' (fun a b => a.date ≤ b.date) msgs →
      (segmentConversations msgs).flatten = msgs ∧
      (∀ c ∈ segmentConversations msgs, c ≠ []) ∧
      (∀ c ∈ segmentConversations msgs,
        List.Chain' (fun a b => b.date - a.date < gapLimitMs) c) ∧
      List.Chain' (fun c1 c2 => ∀ x ∈ c1.getLast?, ∀ y ∈ c2.head?,
        gapLimitMs ≤ y.date - x.date) (segmentConversations msgs) ∧
      List.Chain' (fun c1 c2 => ∀ x ∈ c1.head?, ∀ y ∈ c2.head?, x.date < y.date)
        (segmentConversations msgs) := by
  intro msgs hne hch
  cases msgs with
  | nil => exact absurd rfl hne
  | cons m rest =>
    have h := segGo_spec rest m [m] (by simp) (by simp) (by simp) hch (by simp)
    obtain ⟨_, hflat, hnonempty, _, hichains, hinter, hstart⟩ := h
    have hseg : segmentConversations (m :: rest) = segGo m [m] rest := rfl
    rw [hseg]
    exact ⟨by rw [hflat]; simp, hnonempty, hichains, hinter, hstart⟩

def segMsgA : PMsg := ⟨0, "a", false, 1, 0, 0, "Thursday", "w", "m", 0⟩

def segMsgB : PMsg := ⟨1000, "b", true, 1, 0, 0, "Thursday", "w", "m", 0⟩

def segMsgC : PMsg := ⟨200000000, "c", false, 1, 0, 0, "Saturday", "w", "m", 0⟩

theorem segmentation_partition_witness :
    (segmentConversations [segMsgA, segMsgB, segMsgC]).flatten = [segMsgA, segMsgB, segMsgC] ∧
    (∀ c ∈ segmentConversations [segMsgA, segMsgB, segMsgC], c ≠ []) ∧
    (∀ c ∈ segmentConversations [segMsgA, segMsgB, segMsgC],
      List.Chain' (fun a b => b.date - a.date < gapLimitMs) c) ∧
    List.Chain' (fun c1 c2 => ∀ x ∈ c1.getLast?, ∀ y ∈ c2.head?,
      gapLimitMs ≤ y.date - x.date) (segmentConversations [segMsgA, segMsgB, segMsgC]) ∧
    List.Chain' (fun c1 c2 => ∀ x ∈ c1.head?, ∀ y ∈ c2.head?, x.date < y.date)
      (segmentConversations [segMsgA, segMsgB, segMsgC]) :=
  segmentation_partition [segMsgA, segMsgB, segMsgC] (by decide)
    (List.chain'_cons.mpr ⟨by decide, List.chain'_cons.mpr ⟨by decide, by simp⟩⟩)

/-! ## Claim C4: response-time medians -/

/-- The spec's median: sort ascending; odd length takes the middle
element, even length the mean of the two middle elements. -/
def specMedian (l : List ℚ) : Option ℚ :=
  if l = [] then none
  else
    some (if l.length % 2 = 0 then
      ((List.insertionSort (· ≤ ·) l).getD (l.length / 2 - 1) 0 +
        (List.insertionSort (· ≤ ·) l).getD (l.length / 2) 0) / 2
    else (List.insertionSort (· ≤ ·) l).getD (l.length / 2) 0)

theorem msToHours_le_iff (a b : ℤ) : msToHours a ≤ msToHours b ↔ a ≤ b := by
  unfold msToHours
  rw [div_le_div_iff_of_pos_right (show (0:ℚ) < 3600000 by norm_num)]
  exact_mod_cast Iff.rfl

theorem orderedInsert_map (a : ℤ) (l : List ℤ) :
    List.orderedInsert (· ≤ ·) (msToHours a) (l.map msToHours) =
      (List.orderedInsert (· ≤ ·) a l).map msToHours := by
  induction l with
  | nil => rfl
  | cons b t ih =>
    simp only [List.map_cons, List.orderedInsert]
    by_cases h : a ≤ b
    · rw [if_pos ((msToHours_le_iff a b).mpr h), if_pos h]
      simp
    · rw [if_neg (fun hc => h ((msToHours_le_iff a b).mp hc)), if_neg h]
      simp [ih]

theorem insertionSort_map (l : List ℤ) :
    List.insertionSort (· ≤ ·) (l.map msToHours) =
      (List.insertionSort (· ≤ ·) l).map msToHours := by
  induction l with
  | nil => rfl
  | cons b t ih => simp only [List.map_cons, List.insertionSort, ih, orderedInsert_map]

theorem getD_map_msToHours (l : List ℤ) (n : ℕ) :
    (l.map msToHours).getD n 0 = msToHours (l.getD n 0) := by
  induction l generalizing n with
  | nil => simp [msToHours]
  | cons b t ih =>
    cases n with
    | zero => simp
    | succ n => simpa using ih n

theorem medianHours_eq_specMedian (l : List ℤ) :
    medianHours l = specMedian (l.map msToHours) := by
  by_cases h : l = []
  · subst h; simp [medianHours, specMedian]
  · have hmap : l.map msToHours ≠ [] := by simpa using h
    have hlen0 : ¬ (l.length = 0) := fun hh => h (List.length_eq_zero.mp hh)
    simp only [medianHours, specMedian, sortInts, if_neg hlen0, if_neg hmap, List.length_map,
      insertionSort_map, getD_map_msToHours]
    by_cases hpar : l.length % 2 = 0 <;> simp [hpar]

def msgRA : PMsg := ⟨0, "hey", false, 1, 0, 0, "Thursday", "w", "2001-01", 0⟩

def msgRB : PMsg := ⟨7200000, "hi", true, 1, 2, 0, "Thursday", "w", "2001-01", 0⟩

theorem gapsYT_concrete : gapsYouToThem [msgRA, msgRB] "2001-01" = [7200000] := by decide

theorem gapsTY_concrete : gapsThemToYou [msgRA, msgRB] "2001-01" = [] := by decide

theorem rtMonths_concrete : rtMonths [msgRA, msgRB] = ["2001-01"] := by decide

theorem medianHours_single : medianHours [7200000] = some 2 := by
  simp [medianHours, sortInts, List.insertionSort, msToHours]
  norm_num

/-- C4: for the two-message exchange A (them, t0) and B (you, t0+2h),
the analyzer reports exactly one month — B's month — with a you→them
median of 2.0 hours and no them→you value; in general every reported
entry's value per direction is the standard even/odd median of the
gaps recorded for that month and direction (read out in hours), and a
direction with no recorded gaps yields null, never zero. -/
theorem response_time_median :
    responseTimeData [msgRA, msgRB] = [⟨"2001-01", some 2, none⟩] ∧
    (∀ msgs e, e ∈ responseTimeData msgs →
      e.youToThem = specMedian ((gapsYouToThem msgs e.month).map msToHours) ∧
      e.themToYou = specMedian ((gapsThemToYou msgs e.month).map msToHours) ∧
      (gapsYouToThem msgs e.month = [] → e.youToThem = none) ∧
      (gapsThemToYou msgs e.month = [] → e.themToYou = none)) ∧
    specMedian [] = none := by
  refine ⟨?_, ?_, by simp [specMedian]⟩
  · unfold responseTimeData
    rw [rtMonths_concrete]
    simp only [List.map_cons, List.map_nil, gapsYT_concrete, gapsTY_concrete,
      medianHours_single]
    simp [medianHours]
  · intro msgs e he
    unfold responseTimeData at he
    obtain ⟨m, _, rfl⟩ := List.mem_map.mp he
    refine ⟨?_, ?_, ?_, ?_⟩
    · exact medianHours_eq_specMedian _
    · exact medianHours_eq_specMedian _
    · intro h; simp [h, medianHours]
    · intro h; simp [h, medianHours]

theorem response_time_median_witness :
    (⟨"2001-01", some 2, none⟩ : RTEntry).youToThem =
      specMedian ((gapsYouToThem [msgRA, msgRB]
        (⟨"2001-01", some 2, none⟩ : RTEntry).month).map msToHours) ∧
    (⟨"2001-01", some 2, none⟩ : RTEntry).themToYou =
      specMedian ((gapsThemToYou [msgRA, msgRB]
        (⟨"2001-01", some 2, none⟩ : RTEntry).month).map msToHours) ∧
    (gapsYouToThem [msgRA, msgRB] (⟨"2001-01", some 2, none⟩ : RTEntry).month = [] →
      (⟨"2001-01", some 2, none⟩ : RTEntry).youToThem = none) ∧
    (gapsThemToYou [msgRA, msgRB] (⟨"2001-01", some 2, none⟩ : RTEntry).month = [] →
      (⟨"2001-01", some 2, none⟩ : RTEntry).themToYou = none) :=
  response_time_median.2.1 [msgRA, msgRB] ⟨"2001-01", some 2, none⟩
    (by rw [response_time_median.1]; exact List.mem_singleton.mpr rfl)

/-! ## Claim C6: words per week -/

/-- JS `weeklyWords.get(k)` on the association-list model. -/
def wwGet (k : String) : List (String × ℤ × ℕ) → Option (ℤ × ℕ)
  | [] => none
  | kv :: rest => if kv.1 = k then some kv.2 else wwGet k rest

/-- The per-bucket state transformer the fold applies for each message
of one week: accumulate words, keep the earliest date. -/
def wwMerge : Option (ℤ × ℕ) → List PMsg → Option (ℤ × ℕ)
  | st, [] => st
  | none, m :: rest => wwMerge (some (m.date, m.wordCount)) rest
  | some (d, w), m :: rest =>
    wwMerge (some ((if m.date < d then m.date else d), w + m.wordCount)) rest

def minDateFrom (d : ℤ) : List PMsg → ℤ
  | [] => d
  | m :: rest => minDateFrom (if m.date < d then m.date else d) rest

def sumWords (l : List PMsg) : ℕ := (l.map (fun m => m.wordCount)).sum

/-- The claim's label: the Monday on or before the given day. -/
def mondayOnOrBefore (day : ℤ) : ℤ := day - (wdOfDay day + 6).emod 7

theorem wwGet_upd (key k : String) (d : ℤ) (wc : ℕ) (acc : List (String × ℤ × ℕ)) :
    wwGet k (wwUpd key d wc acc) =
      if key = k then
        (match wwGet k acc with
         | none => some (d, wc)
         | some (d0, w0) => some ((if d < d0 then d else d0), w0 + wc))
      else wwGet k acc := by
  induction acc with
  | nil => by_cases h : key = k <;> simp [wwUpd, wwGet, h]
  | cons kv rest ih =>
    by_cases h1 : kv.1 = key
    · by_cases h2 : key = k
      · subst h2
        simp [wwUpd, wwGet, h1]
      · have h3 : ¬ kv.1 = k := fun hc => h2 (h1.symm.trans hc)
        simp [wwUpd, wwGet, h1, h2, h3]
    · by_cases h3 : kv.1 = k
      · have h2 : ¬ key = k := fun hc => h1 (h3.trans hc.symm)
        have h4 : ¬ k = key := fun hc => h2 hc.symm
        simp [wwUpd, wwGet, h1, h2, h3, h4]
      · simp only [wwUpd, if_neg h1]
        simp only [wwGet, if_neg h3]
        exact ih

theorem wwGet_fold (k : String) :
    ∀ (msgs : List PMsg) (acc : List (String × ℤ × ℕ)),
      wwGet k (msgs.foldl (fun a m => wwUpd m.weekKey m.date m.wordCount a) acc) =
        wwMerge (wwGet k acc) (msgs.filter (fun m => m.weekKey = k)) := by
  intro msgs
  induction msgs with
  | nil => intro acc; simp [wwMerge]
  | cons m rest ih =>
    intro acc
    simp only [List.foldl_cons, ih]
    by_cases h : m.weekKey = k
    · have hfc : (m :: rest).filter (fun x => decide (x.weekKey = k)) =
          m :: rest.filter (fun x => decide (x.weekKey = k)) := by simp [h]
      rw [hfc, wwGet_upd, if_pos h]
      cases hacc : wwGet k acc with
      | none => simp [wwMerge]
      | some v =>
        cases v with
        | mk d0 w0 => simp [wwMerge]
    · have hfc : (m :: rest).filter (fun x => decide (x.weekKey = k)) =
          rest.filter (fun x => decide (x.weekKey = k)) := by simp [h]
      rw [hfc, wwGet_upd, if_neg h]

theorem wwMerge_some :
    ∀ (l : List PMsg) (d : ℤ) (w : ℕ),
      wwMerge (some (d, w)) l = some (minDateFrom d l, w + sumWords l) := by
  intro l
  induction l with
  | nil => intro d w; simp [wwMerge, minDateFrom, sumWords]
  | cons m rest ih =>
    intro d w
    simp only [wwMerge, minDateFrom, ih, sumWords, List.map_cons, List.sum_cons]
    rw [Nat.add_assoc]

theorem minDateFrom_le :
    ∀ (l : List PMsg) (d : ℤ), minDateFrom d l ≤ d ∧ ∀ m ∈ l, minDateFrom d l ≤ m.date := by
  intro l
  induction l with
  | nil => intro d; simp [minDateFrom]
  | cons m rest ih =>
    intro d
    simp only [minDateFrom]
    constructor
    · by_cases hc : m.date < d
      · rw [if_pos hc]
        have h := (ih m.date).1
        omega
      · rw [if_neg hc]
        exact (ih d).1
    · intro x hx
      rcases List.mem_cons.mp hx with h | h
      · subst h
        by_cases hc : x.date < d
        · rw [if_pos hc]
          exact (ih x.date).1
        · rw [if_neg hc]
          have h2 := (ih d).1
          omega
      · by_cases hc : m.date < d
        · rw [if_pos hc]
          exact (ih m.date).2 x h
        · rw [if_neg hc]
          exact (ih d).2 x h

theorem minDateFrom_attained :
    ∀ (l : List PMsg) (d : ℤ),
      minDateFrom d l = d ∨ ∃ m ∈ l, minDateFrom d l = m.date := by
  intro l
  induction l with
  | nil => intro d; left; rfl
  | cons m rest ih =>
    intro d
    simp only [minDateFrom]
    rcases ih (if m.date < d then m.date else d) with h | ⟨x, hx, hxe⟩
    · by_cases hc : m.date < d
      · right; exact ⟨m, by simp, by rw [h, if_pos hc]⟩
      · left; rw [h, if_neg hc]
    · right; exact ⟨x, by simp [hx], hxe⟩

theorem wwGet_mem (k : String) :
    ∀ (l : List (String × ℤ × ℕ)) (v : ℤ × ℕ), wwGet k l = some v → (k, v) ∈ l := by
  intro l
  induction l with
  | nil => intro v h; simp [wwGet] at h
  | cons kv rest ih =>
    intro v h
    by_cases h1 : kv.1 = k
    · simp only [wwGet, if_pos h1] at h
      have : kv = (k, v) := by
        cases kv with
        | mk a b => simp at h1 ⊢; exact ⟨h1, by simpa using h⟩
      simp [this]
    · simp only [wwGet, if_neg h1] at h
      exact List.mem_cons.mpr (Or.inr (ih v h))

theorem insKeyAscZ_perm {α : Type} (key : α → ℤ) (x : α) :
    ∀ l : List α, List.Perm (insKeyAscZ key x l) (x :: l) := by
  intro l
  induction l with
  | nil => simp [insKeyAscZ]
  | cons y ys ih =>
    simp only [insKeyAscZ]
    by_cases h : key x < key y
    · simp [h]
    · simp only [h, if_false]
      exact (List.Perm.cons y ih).trans (List.Perm.swap x y ys)

theorem sortKeyAscZ_fold_perm {α : Type} (key : α → ℤ) :
    ∀ (l acc : List α),
      List.Perm (l.foldl (fun acc x => insKeyAscZ key x acc) acc) (acc ++ l) := by
  intro l
  induction l with
  | nil => intro acc; simp
  | cons x xs ih =>
    intro acc
    simp only [List.foldl_cons]
    refine (ih (insKeyAscZ key x acc)).trans ?_
    have h1 : List.Perm (insKeyAscZ key x acc ++ xs) ((x :: acc) ++ xs) :=
      List.Perm.append_right xs (insKeyAscZ_perm key x acc)
    refine h1.trans ?_
    simpa using List.perm_middle.symm

theorem sortKeyAscZ_perm {α : Type} (key : α → ℤ) (l : List α) :
    List.Perm (sortKeyAscZ key l) l := by
  simpa using sortKeyAscZ_fold_perm key l []

/-- C6 (amended): for every populated week bucket of the trailing
window, the bucket's value is the sum of `wordCount` over the bucket's
messages — as claimed — but the bucket label is the *Sunday*-aligned
week start: the bucket's earliest message date `d` is labelled
`day(d) - getDay(day(d))`, a Sunday (day-of-week 0) at most 6 days
before `day(d)` — not the Monday on or before it. -/
theorem words_per_week_amended :
    ∀ (msgs : List PMsg) (cutoff : ℤ) (k : String),
      (msgs.filter (fun m => cutoff ≤ m.date)).filter (fun m => m.weekKey = k) ≠ [] →
      ∃ d w,
        wwGet k (weeklyWords (msgs.filter (fun m => cutoff ≤ m.date))) = some (d, w) ∧
        w = sumWords ((msgs.filter (fun m => cutoff ≤ m.date)).filter
          (fun m => m.weekKey = k)) ∧
        (∀ m ∈ (msgs.filter (fun m => cutoff ≤ m.date)).filter (fun m => m.weekKey = k),
          d ≤ m.date) ∧
        (∃ m ∈ (msgs.filter (fun m => cutoff ≤ m.date)).filter (fun m => m.weekKey = k),
          m.date = d) ∧
        (⟨wwLabelDay d, w⟩ : WWEntry) ∈ wordsPerWeekData msgs cutoff ∧
        wwLabelDay d = epochDayOfMs d - wdOfDay (epochDayOfMs d) ∧
        wdOfDay (wwLabelDay d) = 0 ∧
        epochDayOfMs d - 6 ≤ wwLabelDay d ∧ wwLabelDay d ≤ epochDayOfMs d := by
  intro msgs cutoff k hne
  cases hb : (msgs.filter (fun m => cutoff ≤ m.date)).filter (fun m => m.weekKey = k) with
  | nil => exact absurd hb hne
  | cons b bs =>
    have hfold := wwGet_fold k (msgs.filter (fun m => cutoff ≤ m.date)) []
    rw [hb] at hfold
    have hmerge : wwMerge (wwGet k []) (b :: bs) =
        some (minDateFrom b.date bs, b.wordCount + sumWords bs) := by
      simp only [wwGet, wwMerge]
      exact wwMerge_some bs b.date b.wordCount
    rw [hmerge] at hfold
    refine ⟨minDateFrom b.date bs, b.wordCount + sumWords bs, hfold, ?_, ?_, ?_, ?_, rfl, ?_, ?_⟩
    · simp [sumWords]
    · intro m hm
      rcases List.mem_cons.mp hm with h | h
      · subst h; exact (minDateFrom_le bs m.date).1
      · exact (minDateFrom_le bs b.date).2 m h
    · rcases minDateFrom_attained bs b.date with h | ⟨x, hx, hxe⟩
      · exact ⟨b, by simp, h.symm⟩
      · exact ⟨x, by simp [hx], hxe.symm⟩
    · have hmem : (k, (minDateFrom b.date bs, b.wordCount + sumWords bs)) ∈
          weeklyWords (msgs.filter (fun m => cutoff ≤ m.date)) :=
        wwGet_mem k _ _ hfold
      have hmapmem : (⟨wwLabelDay (minDateFrom b.date bs), b.wordCount + sumWords bs⟩ :
          WWEntry) ∈ (weeklyWords (msgs.filter (fun m => cutoff ≤ m.date))).map
            (fun e => (⟨wwLabelDay e.2.1, e.2.2⟩ : WWEntry)) :=
        List.mem_map.mpr ⟨(k, (minDateFrom b.date bs, b.wordCount + sumWords bs)), hmem, rfl⟩
      unfold wordsPerWeekData
      exact ((sortKeyAscZ_perm (fun e : WWEntry => e.labelDay) _).mem_iff).mpr hmapmem
    · simp only [wwLabelDay, wdOfDay]
      have hq : (epochDayOfMs (minDateFrom b.date bs) + 4).emod 7 +
          7 * ((epochDayOfMs (minDateFrom b.date bs) + 4).ediv 7) =
          epochDayOfMs (minDateFrom b.date bs) + 4 :=
        Int.emod_add_ediv _ 7
      have heq : epochDayOfMs (minDateFrom b.date bs) -
          (epochDayOfMs (minDateFrom b.date bs) + 4).emod 7 + 4 =
          7 * ((epochDayOfMs (minDateFrom b.date bs) + 4).ediv 7) := by omega
      rw [heq]
      exact Int.mul_emod_right 7 _
    · simp only [wwLabelDay, wdOfDay]
      have h0 : 0 ≤ (epochDayOfMs (minDateFrom b.date bs) + 4).emod 7 :=
        Int.emod_nonneg _ (by norm_num)
      have h7 : (epochDayOfMs (minDateFrom b.date bs) + 4).emod 7 < 7 :=
        Int.emod_lt_of_pos _ (by norm_num)
      exact ⟨by omega, by omega⟩

/-- A message on Sunday 1970-01-04 (epoch day 3). -/
def sundayMsg : PMsg := ⟨259200000, "abc de", false, 2, 0, 0, "Sunday", "wk", "mk", 0⟩

/-- C6 is false as stated: the bucket containing only the Sunday
message (epoch day 3, a Sunday) is labelled with day 3 itself — the
Sunday-aligned week start — whereas the claim requires the Monday on
or before it, day -3 (a Monday). -/
theorem words_per_week_counterexample :
    wordsPerWeekData [sundayMsg] 0 = [⟨3, 2⟩] ∧
    wdOfDay 3 = 0 ∧
    mondayOnOrBefore 3 = -3 ∧
    wdOfDay (-3) = 1 ∧
    (3 : ℤ) ≠ -3 := by
  refine ⟨by decide, by decide, by decide, by decide, by decide⟩

theorem words_per_week_witness :
    ∃ d w,
      wwGet "wk" (weeklyWords ([sundayMsg].filter (fun m => (0:ℤ) ≤ m.date))) = some (d, w) ∧
      w = sumWords (([sundayMsg].filter (fun m => (0:ℤ) ≤ m.date)).filter
        (fun m => m.weekKey = "wk")) ∧
      (∀ m ∈ ([sundayMsg].filter (fun m => (0:ℤ) ≤ m.date)).filter
        (fun m => m.weekKey = "wk"), d ≤ m.date) ∧
      (∃ m ∈ ([sundayMsg].filter (fun m => (0:ℤ) ≤ m.date)).filter
        (fun m => m.weekKey = "wk"), m.date = d) ∧
      (⟨wwLabelDay d, w⟩ : WWEntry) ∈ wordsPerWeekData [sundayMsg] 0 ∧
      wwLabelDay d = epochDayOfMs d - wdOfDay (epochDayOfMs d) ∧
      wdOfDay (wwLabelDay d) = 0 ∧
      epochDayOfMs d - 6 ≤ wwLabelDay d ∧ wwLabelDay d ≤ epochDayOfMs d :=
  words_per_week_amended [sundayMsg] 0 "wk" (by decide)
